import Mathlib

/-!
Verification of the changelog rewriter in .github/scripts/update-changelog.py.

A Python string is modelled as a list of characters; a document is split into
lines on the newline character exactly as the split on a newline separator does
in the script.  The sections dict of the script is modelled as an association
list with the Python dict semantics: assignment to an existing key keeps its
position and replaces the value, assignment to a new key appends it, and
iteration follows this insertion order.  The file system boundary of
update_changelog_file is modelled by an Option result: none is the failure
outcome, in which the script writes nothing, and some is the rewritten text
that the script writes back.
-/

/-- Newline character used to split and join documents. -/
def NLc : Char := '\n'

/-- Characters of the Python default whitespace class used by strip, rstrip
    and the whitespace regex class (ASCII range). -/
def pyWS (c : Char) : Bool :=
  c = ' ' || c = '\t' || c = '\n' || c = '\r' || c = '\x0b' || c = '\x0c'

/-- Character data of a string literal, used to write documents and lines. -/
def strL (s : String) : List Char := s.data

/-- Python lstrip with default whitespace. -/
def lstrip (s : List Char) : List Char := s.dropWhile pyWS

/-- Python rstrip with default whitespace. -/
def rstrip (s : List Char) : List Char := (lstrip s.reverse).reverse

/-- Python strip with default whitespace. -/
def strip (s : List Char) : List Char := lstrip (rstrip s)

/-- Truthiness of a Python string: nonempty. -/
def truthy (s : List Char) : Bool := !s.isEmpty

/-- Split on the newline character, as the Python split on a newline separator:
    n separator occurrences yield n plus one parts. -/
def splitNl : List Char → List (List Char)
  | [] => [[]]
  | c :: cs =>
    if c = NLc then [] :: splitNl cs
    else
      match splitNl cs with
      | [] => [[c]]
      | p :: ps => (c :: p) :: ps

/-- Join with the newline character, as the Python join on a newline string. -/
def joinNl : List (List Char) → List Char
  | [] => []
  | [l] => l
  | l :: ls => l ++ NLc :: joinNl ls

/-- Split a list at the first occurrence of a character, returning the parts
    before and after it, or none when the character is absent.  This mirrors
    the lazy group up to the first closing bracket in the version regex. -/
def splitFirst (c : Char) : List Char → Option (List Char × List Char)
  | [] => none
  | x :: xs =>
    if x = c then some ([], xs)
    else (splitFirst c xs).map (fun p => (x :: p.1, p.2))

/-- Match of the optional date part of the version regex: whitespace, one
    hyphen, whitespace, then the rest of the line as the date group. -/
def dateGroup (s : List Char) : Option (List Char) :=
  match s.dropWhile pyWS with
  | '-' :: rest => some (rest.dropWhile pyWS)
  | _ => none

/-- The four characters that open a version heading line. -/
def hhOpen : List Char := strL "## ["

/-- Match of the version heading regex of parse_changelog: the opening four
    characters, the lazily captured label up to the first closing bracket,
    then the optional date part.  Returns the label and the raw date group. -/
def version_match (l : List Char) : Option (List Char × Option (List Char)) :=
  if hhOpen.isPrefixOf l then
    (splitFirst ']' (l.drop 4)).map (fun p => (p.1, dateGroup p.2))
  else none

/-- Suffix used by parse_changelog for the synthetic date keys. -/
def dateSfx : List Char := strL "_date"

/-- Assignment into a Python dict: an existing key keeps its position and gets
    the new value, a new key is appended at the end. -/
def dinsert (k v : List Char) : List (List Char × List Char) → List (List Char × List Char)
  | [] => [(k, v)]
  | p :: rest => if p.1 = k then (k, v) :: rest else p :: dinsert k v rest

/-- Lookup in the modelled dict. -/
def dget? (d : List (List Char × List Char)) (k : List Char) : Option (List Char) :=
  match d with
  | [] => none
  | p :: rest => if p.1 = k then some p.2 else dget? rest k

/-- Loop of parse_changelog over the remaining lines, carrying the current
    section label, the accumulated body lines of the current section, and the
    sections dict built so far.  On a version heading the previous section body
    is saved first and then the synthetic date key is assigned when the date
    group is truthy, exactly in the order of the script. -/
def parseLoop : List (List Char) → Option (List Char) → List (List Char) →
    List (List Char × List Char) → List (List Char × List Char)
  | [], none, _, sections => sections
  | [], some cs, cont, sections => dinsert cs (joinNl cont) sections
  | l :: ls, cur, cont, sections =>
    match version_match l with
    | some lab_d =>
      let sections1 :=
        match cur with
        | some cs => dinsert cs (joinNl cont) sections
        | none => sections
      let sections2 :=
        match lab_d.2 with
        | some dt => if truthy dt then dinsert (lab_d.1 ++ dateSfx) dt sections1 else sections1
        | none => sections1
      parseLoop ls (some lab_d.1) [] sections2
    | none =>
      match cur with
      | some cs => parseLoop ls (some cs) (cont ++ [l]) sections
      | none => parseLoop ls none cont sections

/-- parse_changelog from the script. -/
def parse_changelog (content : List Char) : List (List Char × List Char) :=
  parseLoop (splitNl content) none [] []

/-- extract_header_content from the script: the lines before the first line
    starting with the heading opener, joined and right-stripped. -/
def extract_header_content (content : List Char) : List Char :=
  rstrip (joinNl ((splitNl content).takeWhile (fun l => !(hhOpen.isPrefixOf l))))

/-- Match of the horizontal-rule regex of extract_footer_content: exactly three
    hyphens followed only by whitespace up to the end of the line. -/
def hrMatch (l : List Char) : Bool :=
  (strL "---").isPrefixOf l && (l.drop 3).all pyWS

/-- Loop of extract_footer_content: the suffix of the lines starting at the
    first line matching the horizontal-rule regex, empty when there is none. -/
def footerScan : List (List Char) → List (List Char)
  | [] => []
  | l :: ls => if hrMatch l then l :: ls else footerScan ls

/-- extract_footer_content from the script. -/
def extract_footer_content (content : List Char) : List Char :=
  joinNl (footerScan (splitNl content))

/-- Body filter of create_new_changelog: split a stored section body on
    newlines and keep the lines whose strip is truthy. -/
def cleanedLines (s : List Char) : List (List Char) :=
  (splitNl s).filter (fun l => truthy (strip l))

/-- Key filter of the re-emission loop in create_new_changelog: skip the
    Unreleased key and every key that ends with the date suffix. -/
def emittedKeys (sections : List (List Char × List Char)) : List (List Char) :=
  (sections.map (fun p => p.1)).filter
    (fun k => !(decide (k = strL "Unreleased")) && !(dateSfx.isSuffixOf k))

/-- Heading line re-emitted for a section key, with the date suffix when the
    corresponding date key is present in the dict. -/
def sectionHeading (sections : List (List Char × List Char)) (k : List Char) : List Char :=
  match dget? sections (k ++ dateSfx) with
  | some dt => strL "## [" ++ k ++ strL "] - " ++ dt
  | none => strL "## [" ++ k ++ strL "]"

/-- Value of a key during the re-emission loop; the key is always present
    there, so the default is never read. -/
def dgetD (sections : List (List Char × List Char)) (k : List Char) : List Char :=
  (dget? sections k).getD []

/-- Lines list built by create_new_changelog before the final join.  The header
    and footer enter as single entries even when they span several lines,
    exactly as the script appends the header and footer strings. -/
def newLines (header unreleased_content new_version release_date : List Char)
    (existing_sections : List (List Char × List Char)) (footer : List Char) :
    List (List Char) :=
  [header, [],
   strL "## [Unreleased]", [],
   strL "### Added", [],
   strL "### Changed", [],
   strL "### Fixed", []]
  ++ (if truthy (strip unreleased_content) then
        [strL "## [" ++ new_version ++ strL "] - " ++ release_date, []]
        ++ (if (cleanedLines unreleased_content).isEmpty then []
            else cleanedLines unreleased_content ++ [[]])
      else [])
  ++ (emittedKeys existing_sections).flatMap
      (fun k => [sectionHeading existing_sections k, []]
        ++ cleanedLines (dgetD existing_sections k) ++ [[]])
  ++ (if truthy (strip footer) then [footer] else [])

/-- create_new_changelog from the script. -/
def create_new_changelog (header unreleased_content new_version release_date : List Char)
    (existing_sections : List (List Char × List Char)) (footer : List Char) : List Char :=
  joinNl (newLines header unreleased_content new_version release_date existing_sections footer)

/-- update_changelog_file from the script with the file system modelled away:
    none is the failure outcome (no content is produced and nothing is
    written), some holds the rewritten document.  The Unreleased body is
    stripped before the emptiness check and before being passed on, exactly as
    in the script. -/
def update_changelog_file (content new_version release_date : List Char) :
    Option (List Char) :=
  match dget? (parse_changelog content) (strL "Unreleased") with
  | none => none
  | some u =>
    if truthy (strip u) then
      some (create_new_changelog (extract_header_content content) (strip u)
        new_version release_date (parse_changelog content) (extract_footer_content content))
    else none

/-! ### Derived notions used to state the claims -/

/-- A line opens a section exactly when the version regex matches it. -/
def isHeading (l : List Char) : Bool := (version_match l).isSome

/-- Label captured by the version regex on a line, when it matches. -/
def labelOf (l : List Char) : Option (List Char) :=
  (version_match l).map (fun p => p.1)

/-- Labels of all section-opening lines, in document order. -/
def headingLabels (ls : List (List Char)) : List (List Char) :=
  ls.filterMap labelOf

/-- Index of the first line satisfying a predicate. -/
def firstIdxP (p : List Char → Bool) : List (List Char) → Option Nat
  | [] => none
  | l :: ls => if p l then some 0 else (firstIdxP p ls).map (fun n => n + 1)

/-- Index of the last section-opening line carrying a given label. -/
def lastLabeledIdx (L : List Char) : List (List Char) → Option Nat
  | [] => none
  | l :: ls =>
    match lastLabeledIdx L ls with
    | some j => some (j + 1)
    | none => if labelOf l = some L then some 0 else none

/-- Body recorded for the section opened at line index j: the lines after it up
    to the next section-opening line, joined on newlines. -/
def bodyFromIdx (ls : List (List Char)) (j : Nat) : List Char :=
  joinNl ((ls.drop (j + 1)).takeWhile (fun l => !(isHeading l)))

/-- Number of lines the header scan of extract_header_content consumes. -/
def headerLen (ls : List (List Char)) : Nat :=
  (ls.takeWhile (fun l => !(hhOpen.isPrefixOf l))).length

/-- Line index lies in the header region of the header scan. -/
def inHeaderB (ls : List (List Char)) (i : Nat) : Bool :=
  decide (i < headerLen ls)

/-- Line index lies at or after some section-opening line, hence the parse
    attributes it to a section. -/
def inSectionB (ls : List (List Char)) (i : Nat) : Bool :=
  (List.range (i + 1)).any (fun j => isHeading (ls.getD j []))

/-- Line index lies at or after the first horizontal-rule line, hence the
    footer scan captures it. -/
def inFooterB (ls : List (List Char)) (i : Nat) : Bool :=
  match firstIdxP hrMatch ls with
  | some f => decide (f ≤ i)
  | none => false

/-- Partition reading of the region invariant: every line of the document lies
    in exactly one of the header, the section region, and the footer. -/
def regionPartition (ls : List (List Char)) : Prop :=
  ∀ i, i < ls.length →
    (inHeaderB ls i = true ∧ inSectionB ls i = false ∧ inFooterB ls i = false) ∨
    (inHeaderB ls i = false ∧ inSectionB ls i = true ∧ inFooterB ls i = false) ∨
    (inHeaderB ls i = false ∧ inSectionB ls i = false ∧ inFooterB ls i = true)

/-- Line i belongs to the section opened at line j: j is the latest
    section-opening line at or before i. -/
def ownsLine (ls : List (List Char)) (j i : Nat) : Prop :=
  j ≤ i ∧ isHeading (ls.getD j []) = true ∧
    ∀ k, j < k → k ≤ i → isHeading (ls.getD k []) = false

/-- Truthiness of the optional date group, as tested by the script. -/
def dateTruthy : Option (List Char) → Bool
  | some dt => truthy dt
  | none => false

/-- Dict-write events of the parse loop, in chronological order: at each
    heading the previous section body is saved and then the date key is
    assigned when the date group is truthy; at the end of input the last
    section body is saved. -/
def valEvents : List (List Char) → Option (List Char) → List (List Char) →
    List (List Char × List Char)
  | [], none, _ => []
  | [], some cs, cont => [(cs, joinNl cont)]
  | l :: ls, cur, cont =>
    match version_match l with
    | some lab_d =>
      (match cur with | some cs => [(cs, joinNl cont)] | none => []) ++
      (match lab_d.2 with
       | some dt => if truthy dt then [(lab_d.1 ++ dateSfx, dt)] else []
       | none => []) ++
      valEvents ls (some lab_d.1) []
    | none =>
      match cur with
      | some cs => valEvents ls (some cs) (cont ++ [l])
      | none => valEvents ls cur cont

/-- Fold a list of dict assignments over a dict. -/
def foldlIns : List (List Char × List Char) → List (List Char × List Char) →
    List (List Char × List Char)
  | d, [] => d
  | d, e :: es => foldlIns (dinsert e.1 e.2 d) es

/-- Value of the last assignment to a key in an event list. -/
def lastLookup : List (List Char × List Char) → List Char → Option (List Char)
  | [], _ => none
  | e :: es, k =>
    match lastLookup es k with
    | some v => some v
    | none => if e.1 = k then some e.2 else none

/-- Accumulate keys in first-occurrence order, as Python dict key order. -/
def mergeKeys : List (List Char) → List (List Char) → List (List Char)
  | acc, [] => acc
  | acc, k :: ks => mergeKeys (if k ∈ acc then acc else acc ++ [k]) ks

/-- Apply a function to the first entry of a list. -/
def mapHead (f : List Char → List Char) : List (List Char) → List (List Char)
  | [] => []
  | l :: ls => f l :: ls

/-- Apply a function to the last entry of a list. -/
def mapLast (f : List Char → List Char) : List (List Char) → List (List Char)
  | [] => []
  | [l] => [f l]
  | l :: ls => l :: mapLast f ls

/-- A line is blank when all its characters are whitespace. -/
def isBlankL (l : List Char) : Bool := l.all pyWS

/-- Effect of a whole-string lstrip on the line list of a string: leading blank
    lines disappear and the first remaining line is left-stripped; an all-blank
    string collapses to a single empty line. -/
def lstripLinesSpec (A : List (List Char)) : List (List Char) :=
  match A.dropWhile isBlankL with
  | [] => [[]]
  | l :: rest => lstrip l :: rest

/-- Effect of a whole-string rstrip on the line list of a string: the mirror
    image of lstripLinesSpec, so trailing blank lines disappear and the last
    remaining line is right-stripped; an all-blank string collapses to a
    single empty line. -/
def rstripLinesSpec (A : List (List Char)) : List (List Char) :=
  ((lstripLinesSpec ((A.map List.reverse).reverse)).map List.reverse).reverse

/-- Effect of a whole-string strip on the non-blank lines of a string: the
    first loses its leading whitespace and the last its trailing whitespace. -/
def stripEndsSpec (A : List (List Char)) : List (List Char) :=
  mapHead lstrip (mapLast rstrip A)

/-! ### Lemmas about splitting and joining on newlines -/

theorem splitNl_ne_nil (s : List Char) : splitNl s ≠ [] := by
  cases s with
  | nil => simp [splitNl]
  | cons c cs =>
    simp only [splitNl]
    split
    · simp
    · split <;> simp_all

theorem splitNl_append_nl (a b : List Char) :
    splitNl (a ++ NLc :: b) = splitNl a ++ splitNl b := by
  induction a with
  | nil => simp [splitNl]
  | cons c cs ih =>
    by_cases hc : c = NLc
    · simp [splitNl, hc, ih]
    · simp only [List.cons_append, splitNl, hc, if_false]
      simp only [List.append_eq]
      rw [ih]
      rcases hps : splitNl cs with _ | ⟨p, ps⟩
      · exact absurd hps (splitNl_ne_nil cs)
      · simp [hps]

theorem mem_splitNl_not_nl {s l : List Char} (h : l ∈ splitNl s) : NLc ∉ l := by
  induction s generalizing l with
  | nil => simp [splitNl] at h; simp [h]
  | cons c cs ih =>
    by_cases hc : c = NLc
    · simp only [splitNl, hc, if_true, List.mem_cons] at h
      rcases h with h | h
      · simp [h]
      · exact ih h
    · simp only [splitNl, hc, if_false] at h
      rcases hps : splitNl cs with _ | ⟨p, ps⟩
      · exact absurd hps (splitNl_ne_nil cs)
      · rw [hps] at h
        rcases List.mem_cons.mp h with h | h
        · subst h
          intro hmem
          rcases List.mem_cons.mp hmem with h2 | h2
          · exact hc h2.symm
          · exact ih (by rw [hps]; exact List.mem_cons_self p ps) h2
        · exact ih (by rw [hps]; exact List.mem_cons_of_mem p h)

theorem splitNl_no_nl {l : List Char} (h : NLc ∉ l) : splitNl l = [l] := by
  induction l with
  | nil => simp [splitNl]
  | cons c cs ih =>
    have hc : c ≠ NLc := fun hcc => h (hcc ▸ List.mem_cons_self c cs)
    have hcs : NLc ∉ cs := fun hm => h (List.mem_cons_of_mem c hm)
    simp [splitNl, hc, ih hcs]

theorem splitNl_joinNl {A : List (List Char)} (hA : A ≠ [])
    (h : ∀ l ∈ A, NLc ∉ l) : splitNl (joinNl A) = A := by
  induction A with
  | nil => exact absurd rfl hA
  | cons a A ih =>
    cases A with
    | nil => exact splitNl_no_nl (h a (List.mem_cons_self a []))
    | cons b B =>
      have : joinNl (a :: b :: B) = a ++ NLc :: joinNl (b :: B) := rfl
      rw [this, splitNl_append_nl, splitNl_no_nl (h a (List.mem_cons_self _ _)),
        ih (by simp) (fun l hl => h l (List.mem_cons_of_mem a hl))]
      rfl

theorem splitNl_joinNl_flat {A : List (List Char)} (hA : A ≠ []) :
    splitNl (joinNl A) = (A.map splitNl).flatten := by
  induction A with
  | nil => exact absurd rfl hA
  | cons a A ih =>
    cases A with
    | nil => simp [joinNl]
    | cons b B =>
      have : joinNl (a :: b :: B) = a ++ NLc :: joinNl (b :: B) := rfl
      rw [this, splitNl_append_nl, ih (by simp)]
      simp

/-! ### Lemmas about the Python strip family -/

theorem lstrip_idem (s : List Char) : lstrip (lstrip s) = lstrip s := by
  unfold lstrip
  induction s with
  | nil => simp
  | cons c cs ih =>
    by_cases hc : pyWS c
    · simp [List.dropWhile_cons, hc, ih]
    · simp [List.dropWhile_cons, hc]

theorem rstrip_idem (s : List Char) : rstrip (rstrip s) = rstrip s := by
  unfold rstrip
  rw [List.reverse_reverse, lstrip_idem]

theorem lstrip_rstrip_comm (s : List Char) : lstrip (rstrip s) = rstrip (lstrip s) := by
  induction s with
  | nil => rfl
  | cons c cs ih =>
    by_cases hc : pyWS c
    · have h1 : lstrip (c :: cs) = lstrip cs := by simp [lstrip, List.dropWhile_cons, hc]
      rw [h1, ← ih]
      unfold rstrip lstrip
      simp only [List.reverse_cons, List.dropWhile_append]
      split
      · next hemp =>
        simp only [List.dropWhile_cons, hc, if_true, List.dropWhile_nil]
        simp [List.isEmpty_iff.mp hemp]
      · next hemp => simp [List.reverse_append, List.dropWhile_cons, hc]
    · have h1 : lstrip (c :: cs) = c :: cs := by simp [lstrip, List.dropWhile_cons, hc]
      rw [h1]
      unfold rstrip lstrip
      simp only [List.reverse_cons, List.dropWhile_append]
      split
      · next hemp =>
        simp [List.dropWhile_cons, hc]
      · next hemp =>
        simp [List.reverse_append, List.dropWhile_cons, hc]

theorem strip_idem (s : List Char) : strip (strip s) = strip s := by
  unfold strip
  rw [lstrip_rstrip_comm (lstrip (rstrip s)), lstrip_idem, ← lstrip_rstrip_comm, rstrip_idem]

theorem strip_eq_nil_iff (s : List Char) : strip s = [] ↔ s.all pyWS = true := by
  constructor
  · intro h
    unfold strip lstrip at h
    have h2 : ∀ x ∈ rstrip s, pyWS x = true := List.dropWhile_eq_nil_iff.mp h
    have h3 : ∀ x ∈ List.dropWhile pyWS s.reverse, pyWS x = true := by
      intro x hx
      exact h2 x (by unfold rstrip lstrip; simpa using hx)
    rw [List.all_eq_true]
    intro x hx
    have : x ∈ s.reverse := by simpa using hx
    rw [← List.takeWhile_append_dropWhile (p := pyWS) (l := s.reverse)] at this
    rcases List.mem_append.mp this with h4 | h4
    · exact List.mem_takeWhile_imp h4
    · exact h3 x h4
  · intro h
    have h2 : rstrip s = [] := by
      unfold rstrip lstrip
      have : List.dropWhile pyWS s.reverse = [] :=
        List.dropWhile_eq_nil_iff.mpr (fun x hx => List.all_eq_true.mp h x (by simpa using hx))
      simp [this]
    unfold strip
    simp [h2, lstrip]

theorem truthy_strip_eq (l : List Char) : truthy (strip l) = !(isBlankL l) := by
  by_cases h : l.all pyWS
  · rw [(strip_eq_nil_iff l).mpr h]
    simp [truthy, isBlankL, h]
  · have : strip l ≠ [] := fun hc => h ((strip_eq_nil_iff l).mp hc)
    simp only [truthy, isBlankL]
    rw [Bool.eq_iff_iff]
    simp [List.isEmpty_iff, this, h]

theorem isBlankL_nil : isBlankL [] = true := rfl

theorem pyWS_nl : pyWS NLc = true := rfl


theorem splitNl_lstrip (s : List Char) : splitNl (lstrip s) = lstripLinesSpec (splitNl s) := by
  induction s with
  | nil => rfl
  | cons c cs ih =>
    by_cases hc : pyWS c
    · have h1 : lstrip (c :: cs) = lstrip cs := by simp [lstrip, List.dropWhile_cons, hc]
      rw [h1, ih]
      by_cases hnl : c = NLc
      · subst hnl
        simp [splitNl, lstripLinesSpec, List.dropWhile_cons, isBlankL_nil]
      · rcases hps : splitNl cs with _ | ⟨p, ps⟩
        · exact absurd hps (splitNl_ne_nil cs)
        · have h2 : splitNl (c :: cs) = (c :: p) :: ps := by simp [splitNl, hnl, hps]
          rw [h2]
          have hbl : isBlankL (c :: p) = isBlankL p := by simp [isBlankL, hc]
          unfold lstripLinesSpec
          by_cases hp : isBlankL p
          · rw [List.dropWhile_cons, List.dropWhile_cons]
            simp only [hbl, hp, if_true]
          · rw [List.dropWhile_cons, List.dropWhile_cons]
            simp only [hbl, hp, Bool.false_eq_true, if_false]
            have hlc : lstrip (c :: p) = lstrip p := by simp [lstrip, List.dropWhile_cons, hc]
            rw [hlc]
    · have h1 : lstrip (c :: cs) = c :: cs := by simp [lstrip, List.dropWhile_cons, hc]
      rw [h1]
      have hnl : c ≠ NLc := fun h => hc (h ▸ pyWS_nl)
      rcases hps : splitNl cs with _ | ⟨p, ps⟩
      · exact absurd hps (splitNl_ne_nil cs)
      · have h2 : splitNl (c :: cs) = (c :: p) :: ps := by simp [splitNl, hnl, hps]
        rw [h2]
        unfold lstripLinesSpec
        have hbl : isBlankL (c :: p) = false := by simp [isBlankL, hc]
        rw [List.dropWhile_cons]
        simp only [hbl, Bool.false_eq_true, if_false]
        have hlc : lstrip (c :: p) = c :: p := by simp [lstrip, List.dropWhile_cons, hc]
        rw [hlc]

theorem mapLast_append_single (f : List Char → List Char) (A : List (List Char))
    (a : List Char) : mapLast f (A ++ [a]) = A ++ [f a] := by
  induction A with
  | nil => rfl
  | cons x A ih =>
    cases A with
    | nil => rfl
    | cons y B =>
      have h1 : mapLast f ((x :: y :: B) ++ [a]) = x :: mapLast f ((y :: B) ++ [a]) := rfl
      rw [h1, ih]
      rfl

theorem splitNl_append_single (x : List Char) (c : Char) :
    splitNl (x ++ [c]) =
      if c = NLc then splitNl x ++ [[]] else mapLast (fun l => l ++ [c]) (splitNl x) := by
  induction x with
  | nil =>
    by_cases hc : c = NLc
    · simp [splitNl, hc]
    · simp [splitNl, hc, mapLast]
  | cons d x ih =>
    by_cases hd : d = NLc
    · subst hd
      simp only [List.cons_append, splitNl, if_true]
      simp only [List.append_eq] at ih ⊢
      rw [ih]
      by_cases hc : c = NLc
      · simp [hc]
      · simp only [hc, if_false]
        rcases hps : splitNl x with _ | ⟨p, ps⟩
        · exact absurd hps (splitNl_ne_nil x)
        · simp [mapLast]
    · simp only [List.cons_append, splitNl, hd, if_false]
      simp only [List.append_eq] at ih ⊢
      rw [ih]
      by_cases hc : c = NLc
      · simp only [hc, if_true]
        rcases hps : splitNl x with _ | ⟨p, ps⟩
        · exact absurd hps (splitNl_ne_nil x)
        · simp
      · simp only [hc, if_false]
        rcases hps : splitNl x with _ | ⟨p, ps⟩
        · exact absurd hps (splitNl_ne_nil x)
        · cases ps with
          | nil => simp [mapLast]
          | cons q qs => simp [mapLast]

theorem splitNl_reverse (s : List Char) :
    splitNl s.reverse = ((splitNl s).map List.reverse).reverse := by
  induction s with
  | nil => rfl
  | cons c cs ih =>
    have h1 : (c :: cs).reverse = cs.reverse ++ [c] := by simp
    rw [h1, splitNl_append_single, ih]
    by_cases hc : c = NLc
    · subst hc
      simp [splitNl]
    · simp only [hc, if_false]
      rcases hps : splitNl cs with _ | ⟨p, ps⟩
      · exact absurd hps (splitNl_ne_nil cs)
      · have h2 : splitNl (c :: cs) = (c :: p) :: ps := by simp [splitNl, hc, hps]
        rw [h2]
        simp only [List.map_cons, List.reverse_cons]
        rw [mapLast_append_single]

theorem isBlankL_reverse (l : List Char) : isBlankL l.reverse = isBlankL l := by
  simp [isBlankL, List.all_reverse]

theorem splitNl_rstrip (s : List Char) : splitNl (rstrip s) = rstripLinesSpec (splitNl s) := by
  have h1 : rstrip s = (lstrip s.reverse).reverse := rfl
  rw [h1, splitNl_reverse, splitNl_lstrip, splitNl_reverse, rstripLinesSpec]

theorem cleanedLines_eq (s : List Char) :
    cleanedLines s = (splitNl s).filter (fun l => !(isBlankL l)) := by
  unfold cleanedLines
  apply List.filter_congr
  intro l _
  rw [truthy_strip_eq]

theorem isBlankL_lstrip (l : List Char) : isBlankL (lstrip l) = isBlankL l := by
  rw [Bool.eq_iff_iff]
  constructor
  · intro h
    rw [isBlankL, List.all_eq_true]
    intro x hx
    rw [← List.takeWhile_append_dropWhile (p := pyWS) (l := l)] at hx
    rcases List.mem_append.mp hx with h2 | h2
    · exact List.mem_takeWhile_imp h2
    · exact List.all_eq_true.mp h x h2
  · intro h
    have h2 : lstrip l = [] :=
      List.dropWhile_eq_nil_iff.mpr (fun x hx => List.all_eq_true.mp h x hx)
    rw [h2]
    rfl

theorem dropWhile_cons_head_false {α : Type} {p : α → Bool} :
    ∀ {l : List α} {x : α} {xs : List α}, List.dropWhile p l = x :: xs → p x = false := by
  intro l
  induction l with
  | nil => intro x xs h; simp at h
  | cons a l ih =>
    intro x xs h
    rw [List.dropWhile_cons] at h
    by_cases hp : p a
    · rw [if_pos hp] at h
      exact ih h
    · rw [if_neg hp] at h
      injection h with h1 h2
      subst h1
      simpa using hp

theorem filter_lstripLinesSpec (A : List (List Char)) :
    (lstripLinesSpec A).filter (fun l => !(isBlankL l)) =
      mapHead lstrip (A.filter (fun l => !(isBlankL l))) := by
  unfold lstripLinesSpec
  rcases hd : A.dropWhile isBlankL with _ | ⟨x, xs⟩
  · have hall : ∀ a ∈ A, isBlankL a = true := List.dropWhile_eq_nil_iff.mp hd
    have hA : A.filter (fun l => !(isBlankL l)) = [] := by
      rw [List.filter_eq_nil_iff]
      intro a ha
      simp [hall a ha]
    rw [hA]
    rfl
  · have hx : isBlankL x = false := dropWhile_cons_head_false hd
    have hA : A = A.takeWhile isBlankL ++ x :: xs := by
      conv_lhs => rw [← List.takeWhile_append_dropWhile isBlankL A]
      rw [hd]
    have htw : (A.takeWhile isBlankL).filter (fun l => !(isBlankL l)) = [] := by
      rw [List.filter_eq_nil_iff]
      intro a ha
      simp [List.mem_takeWhile_imp ha]
    conv_rhs => rw [hA]
    rw [List.filter_append, htw, List.nil_append, List.filter_cons, List.filter_cons]
    have hlx : isBlankL (lstrip x) = false := by rw [isBlankL_lstrip]; exact hx
    simp [hx, hlx, mapHead]

theorem revMapHead (f : List Char → List Char) (F : List (List Char)) :
    ((mapHead f ((F.map List.reverse).reverse)).map List.reverse).reverse =
      mapLast (fun l => (f l.reverse).reverse) F := by
  induction F using List.reverseRecOn with
  | nil => rfl
  | append_singleton G a ih =>
    rw [List.map_append, List.reverse_append]
    simp only [List.map_cons, List.map_nil, List.reverse_cons, List.reverse_nil,
      List.nil_append, List.singleton_append]
    rw [mapLast_append_single]
    have h1 : mapHead f (a.reverse :: (G.map List.reverse).reverse) =
        f a.reverse :: (G.map List.reverse).reverse := rfl
    rw [h1]
    simp only [List.map_cons, List.reverse_cons]
    congr 1
    rw [List.map_reverse, List.reverse_reverse, List.map_map]
    have h2 : (List.reverse ∘ List.reverse : List Char → List Char) = id := by
      funext l
      simp
    rw [h2, List.map_id]

theorem filter_rev_comm (X : List (List Char)) :
    X.reverse.filter (fun l => !(isBlankL l)) = (X.filter (fun l => !(isBlankL l))).reverse :=
  List.filter_reverse _ _

theorem filter_map_rev (X : List (List Char)) :
    (X.map List.reverse).filter (fun l => !(isBlankL l)) =
      (X.filter (fun l => !(isBlankL l))).map List.reverse := by
  rw [List.filter_map]
  have h : ∀ a ∈ X, ((fun l => !(isBlankL l)) ∘ List.reverse) a = (fun l => !(isBlankL l)) a := by
    intro a _
    simp [Function.comp, isBlankL_reverse]
  rw [List.filter_congr h]

theorem filter_rstripLinesSpec (A : List (List Char)) :
    (rstripLinesSpec A).filter (fun l => !(isBlankL l)) =
      mapLast rstrip (A.filter (fun l => !(isBlankL l))) := by
  unfold rstripLinesSpec
  rw [filter_rev_comm, filter_map_rev, filter_lstripLinesSpec, filter_rev_comm, filter_map_rev]
  have h1 := revMapHead lstrip (A.filter (fun l => !(isBlankL l)))
  have h2 : (fun l => (lstrip l.reverse).reverse) = rstrip := by
    funext l
    rfl
  rw [h2] at h1
  exact h1

theorem cleanedLines_strip (u : List Char) :
    cleanedLines (strip u) = stripEndsSpec (cleanedLines u) := by
  rw [cleanedLines_eq, cleanedLines_eq]
  unfold strip stripEndsSpec
  rw [splitNl_lstrip, splitNl_rstrip, filter_lstripLinesSpec, filter_rstripLinesSpec]

theorem all_pyWS_splitNl (s : List Char) : s.all pyWS = (splitNl s).all isBlankL := by
  induction s with
  | nil => rfl
  | cons c cs ih =>
    by_cases hnl : c = NLc
    · subst hnl
      simp only [splitNl, if_true, List.all_cons, isBlankL_nil, Bool.true_and, ← ih]
      simp [pyWS_nl]
    · rcases hps : splitNl cs with _ | ⟨p, ps⟩
      · exact absurd hps (splitNl_ne_nil cs)
      · have h2 : splitNl (c :: cs) = (c :: p) :: ps := by simp [splitNl, hnl, hps]
        rw [List.all_cons, ih, hps, h2, List.all_cons, List.all_cons]
        simp [isBlankL, List.all_cons, Bool.and_assoc]

theorem cleanedLines_eq_nil_iff (s : List Char) :
    cleanedLines s = [] ↔ s.all pyWS = true := by
  rw [cleanedLines_eq, List.filter_eq_nil_iff, all_pyWS_splitNl, List.all_eq_true]
  constructor
  · intro h l hl
    have := h l hl
    simpa using this
  · intro h l hl
    simp [h l hl]

/-! ### Python dict lemmas and the event decomposition of the parse loop -/

theorem dget?_dinsert (k v k2 : List Char) (d : List (List Char × List Char)) :
    dget? (dinsert k v d) k2 = if k2 = k then some v else dget? d k2 := by
  induction d with
  | nil =>
    by_cases h : k2 = k
    · subst h
      simp [dinsert, dget?]
    · have h2 : ¬(k = k2) := fun hh => h hh.symm
      simp [dinsert, dget?, h, h2]
  | cons p rest ih =>
    by_cases hp : p.1 = k
    · by_cases h : k2 = k
      · subst h
        simp [dinsert, hp, dget?]
      · have h2 : ¬(k = k2) := fun hh => h hh.symm
        have hp2 : ¬(p.1 = k2) := by rw [hp]; exact h2
        simp [dinsert, hp, dget?, h2, hp2, h]
    · by_cases h2 : p.1 = k2
      · have hk : ¬(k2 = k) := fun hh => hp (h2.trans hh)
        simp [dinsert, hp, dget?, h2, hk]
      · simp [dinsert, hp, dget?, h2, ih]

theorem keys_dinsert (k v : List Char) (d : List (List Char × List Char)) :
    (dinsert k v d).map (fun p => p.1) =
      if k ∈ d.map (fun p => p.1) then d.map (fun p => p.1)
      else d.map (fun p => p.1) ++ [k] := by
  induction d with
  | nil => simp [dinsert]
  | cons p rest ih =>
    by_cases hp : p.1 = k
    · simp [dinsert, hp]
    · have hne : ¬(k = p.1) := fun h => hp h.symm
      simp only [dinsert, hp, if_false, List.map_cons, List.mem_cons, hne, false_or, ih]
      by_cases hm : k ∈ rest.map (fun p => p.1)
      · simp [hm]
      · simp [hm]

theorem foldlIns_append (d : List (List Char × List Char))
    (es fs : List (List Char × List Char)) :
    foldlIns d (es ++ fs) = foldlIns (foldlIns d es) fs := by
  induction es generalizing d with
  | nil => rfl
  | cons e es ih => simp [foldlIns, ih]

theorem lastLookup_append (A B : List (List Char × List Char)) (k : List Char) :
    lastLookup (A ++ B) k =
      match lastLookup B k with
      | some v => some v
      | none => lastLookup A k := by
  induction A with
  | nil => cases h : lastLookup B k <;> simp [lastLookup, h]
  | cons e es ih =>
    have e1 : (e :: es) ++ B = e :: (es ++ B) := rfl
    rw [e1]
    simp only [lastLookup]
    rw [ih]
    cases h : lastLookup B k with
    | some v => rfl
    | none => rfl

theorem dget?_foldlIns (d : List (List Char × List Char))
    (evs : List (List Char × List Char)) (k : List Char) :
    dget? (foldlIns d evs) k =
      match lastLookup evs k with
      | some v => some v
      | none => dget? d k := by
  induction evs generalizing d with
  | nil => rfl
  | cons e es ih =>
    have e1 : foldlIns d (e :: es) = foldlIns (dinsert e.1 e.2 d) es := rfl
    rw [e1, ih]
    cases h2 : lastLookup es k with
    | some v => simp [lastLookup, h2]
    | none =>
      simp only [lastLookup, h2]
      rw [dget?_dinsert]
      by_cases hk : e.1 = k
      · simp [hk]
      · have h3 : ¬(k = e.1) := fun h => hk h.symm
        simp [hk, h3]

theorem keys_foldlIns (d : List (List Char × List Char))
    (evs : List (List Char × List Char)) :
    (foldlIns d evs).map (fun p => p.1) =
      mergeKeys (d.map (fun p => p.1)) (evs.map (fun p => p.1)) := by
  induction evs generalizing d with
  | nil => rfl
  | cons e es ih =>
    have e1 : foldlIns d (e :: es) = foldlIns (dinsert e.1 e.2 d) es := rfl
    rw [e1, ih, keys_dinsert]
    simp only [List.map_cons, mergeKeys]

theorem mem_mergeKeys (x : List Char) (ks : List (List Char)) :
    ∀ acc, x ∈ mergeKeys acc ks ↔ x ∈ acc ∨ x ∈ ks := by
  induction ks with
  | nil => intro acc; simp [mergeKeys]
  | cons k ks ih =>
    intro acc
    by_cases hk : k ∈ acc
    · have e1 : mergeKeys acc (k :: ks) = mergeKeys acc ks := by simp [mergeKeys, hk]
      rw [e1, ih]
      constructor
      · rintro (h | h)
        · exact Or.inl h
        · exact Or.inr (List.mem_cons_of_mem _ h)
      · rintro (h | h)
        · exact Or.inl h
        · rcases List.mem_cons.mp h with h2 | h2
          · exact Or.inl (h2 ▸ hk)
          · exact Or.inr h2
    · have e1 : mergeKeys acc (k :: ks) = mergeKeys (acc ++ [k]) ks := by simp [mergeKeys, hk]
      rw [e1, ih]
      simp only [List.mem_append, List.mem_singleton, List.mem_cons]
      tauto

theorem filter_mergeKeys (p : List Char → Bool) (ks : List (List Char)) :
    ∀ acc, (mergeKeys acc ks).filter p = mergeKeys (acc.filter p) (ks.filter p) := by
  induction ks with
  | nil => intro acc; rfl
  | cons k ks ih =>
    intro acc
    by_cases hk : k ∈ acc
    · have e1 : mergeKeys acc (k :: ks) = mergeKeys acc ks := by simp [mergeKeys, hk]
      rw [e1, ih, List.filter_cons]
      by_cases hp : p k
      · have hm : k ∈ acc.filter p := List.mem_filter.mpr ⟨hk, hp⟩
        simp [hp, mergeKeys, hm]
      · simp [hp]
    · have e1 : mergeKeys acc (k :: ks) = mergeKeys (acc ++ [k]) ks := by simp [mergeKeys, hk]
      rw [e1, ih, List.filter_cons, List.filter_append]
      by_cases hp : p k
      · have hm : ¬(k ∈ acc.filter p) := fun h => hk (List.mem_filter.mp h).1
        simp [hp, mergeKeys, hm, List.filter_cons]
      · simp [hp, mergeKeys, List.filter_cons]

theorem parseLoop_eq (ls : List (List Char)) :
    ∀ (cur : Option (List Char)) (cont : List (List Char))
      (sections : List (List Char × List Char)),
      parseLoop ls cur cont sections = foldlIns sections (valEvents ls cur cont) := by
  induction ls with
  | nil =>
    intro cur cont sections
    cases cur <;> rfl
  | cons l ls ih =>
    intro cur cont sections
    cases hv : version_match l with
    | some lab_d =>
      simp only [parseLoop, valEvents, hv]
      rw [foldlIns_append, foldlIns_append, ih]
      cases cur with
      | none =>
        cases hd2 : lab_d.2 with
        | none => rfl
        | some dt =>
          by_cases ht : truthy dt
          · simp [foldlIns, ht]
          · simp [foldlIns, ht]
      | some cs =>
        cases hd2 : lab_d.2 with
        | none => rfl
        | some dt =>
          by_cases ht : truthy dt
          · simp [foldlIns, ht]
          · simp [foldlIns, ht]
    | none =>
      simp only [parseLoop, valEvents, hv]
      cases cur with
      | none => exact ih none cont sections
      | some cs => exact ih (some cs) (cont ++ [l]) sections

theorem parse_changelog_eq (content : List Char) :
    parse_changelog content = foldlIns [] (valEvents (splitNl content) none []) :=
  parseLoop_eq (splitNl content) none [] []

theorem dateSfx_suffix_append (lab : List Char) :
    dateSfx.isSuffixOf (lab ++ dateSfx) = true :=
  List.isSuffixOf_iff_suffix.mpr (List.suffix_append lab dateSfx)

theorem version_match_isPrefix {l : List Char} {pr : List Char × Option (List Char)}
    (h : version_match l = some pr) : hhOpen.isPrefixOf l = true := by
  by_cases hp : hhOpen.isPrefixOf l
  · exact hp
  · rw [version_match, if_neg hp] at h
    exact absurd h (by simp)

theorem lastWins_aux (L : List Char) (hL : dateSfx.isSuffixOf L = false) (ls : List (List Char)) :
    ∀ (cur : Option (List Char)) (cont : List (List Char)),
      lastLookup (valEvents ls cur cont) L =
        match lastLabeledIdx L ls with
        | some j => some (bodyFromIdx ls j)
        | none =>
          if cur = some L then
            some (joinNl (cont ++ ls.takeWhile (fun l => !(isHeading l))))
          else none := by
  induction ls with
  | nil =>
    intro cur cont
    cases cur with
    | none => simp [valEvents, lastLookup, lastLabeledIdx]
    | some cs =>
      by_cases h : cs = L
      · subst h
        simp [valEvents, lastLookup, lastLabeledIdx, bodyFromIdx]
      · have h2 : ¬(some cs = some L) := by simpa using h
        simp [valEvents, lastLookup, lastLabeledIdx, h, h2]
  | cons l ls ih =>
    intro cur cont
    have hdrop : ∀ j, bodyFromIdx (l :: ls) (j + 1) = bodyFromIdx ls j := by
      intro j
      simp [bodyFromIdx, List.drop_succ_cons]
    cases hv : version_match l with
    | some lab_d =>
      have hlabel : labelOf l = some lab_d.1 := by simp [labelOf, hv]
      have hhead : isHeading l = true := by simp [isHeading, hv]
      simp only [valEvents, hv]
      rw [lastLookup_append, lastLookup_append, ih (some lab_d.1) []]
      cases hj : lastLabeledIdx L ls with
      | some j =>
        have hj2 : lastLabeledIdx L (l :: ls) = some (j + 1) := by
          simp [lastLabeledIdx, hj]
        simp [hj2, hdrop]
      | none =>
        by_cases hlab : lab_d.1 = L
        · have hj2 : lastLabeledIdx L (l :: ls) = some 0 := by
            simp [lastLabeledIdx, hj, hlabel, hlab]
          simp only [hj2]
          have hb : bodyFromIdx (l :: ls) 0 = joinNl (ls.takeWhile (fun x => !(isHeading x))) := by
            simp [bodyFromIdx]
          simp [hlab, hb]
        · have hj2 : lastLabeledIdx L (l :: ls) = none := by
            simp [lastLabeledIdx, hj, hlabel, hlab]
          have hsl : ¬(some lab_d.1 = some L) := by simpa using hlab
          simp only [hsl, if_false]
          have hdate : lastLookup
              (match lab_d.2 with
               | some dt => if truthy dt then [(lab_d.1 ++ dateSfx, dt)] else []
               | none => []) L = none := by
            cases hd2 : lab_d.2 with
            | none => rfl
            | some dt =>
              by_cases ht : truthy dt
              · simp only [ht, if_true, lastLookup]
                have : ¬(lab_d.1 ++ dateSfx = L) := by
                  intro hcontra
                  rw [← hcontra] at hL
                  rw [dateSfx_suffix_append] at hL
                  exact absurd hL (by simp)
                simp [this]
              · simp [ht, lastLookup]
          rw [hdate]
          cases cur with
          | none => simp [hj2, lastLookup]
          | some cs =>
            by_cases hcs : cs = L
            · subst hcs
              have htw : (l :: ls).takeWhile (fun x => !(isHeading x)) = [] := by
                simp [List.takeWhile_cons, hhead]
              simp [hj2, lastLookup, htw]
            · have h2 : ¬(some cs = some L) := by simpa using hcs
              simp [hj2, lastLookup, hcs, h2]
    | none =>
      have hlabel : labelOf l = none := by simp [labelOf, hv]
      have hhead : isHeading l = false := by simp [isHeading, hv]
      have htw : (l :: ls).takeWhile (fun x => !(isHeading x)) =
          l :: ls.takeWhile (fun x => !(isHeading x)) := by
        simp [List.takeWhile_cons, hhead]
      simp only [valEvents, hv]
      cases cur with
      | some cs =>
        rw [ih (some cs) (cont ++ [l])]
        cases hj : lastLabeledIdx L ls with
        | some j =>
          have hj2 : lastLabeledIdx L (l :: ls) = some (j + 1) := by
            simp [lastLabeledIdx, hj]
          simp [hj2, hdrop]
        | none =>
          have hj2 : lastLabeledIdx L (l :: ls) = none := by
            simp [lastLabeledIdx, hj, hlabel]
          by_cases hcs : cs = L
          · subst hcs
            simp [hj2, htw, List.append_assoc]
          · have h2 : ¬(some cs = some L) := by simpa using hcs
            simp [hj2, h2]
      | none =>
        rw [ih none cont]
        cases hj : lastLabeledIdx L ls with
        | some j =>
          have hj2 : lastLabeledIdx L (l :: ls) = some (j + 1) := by
            simp [lastLabeledIdx, hj]
          simp [hj2, hdrop]
        | none =>
          have hj2 : lastLabeledIdx L (l :: ls) = none := by
            simp [lastLabeledIdx, hj, hlabel]
          simp [hj2]

theorem lastWins (content : List Char) (L : List Char)
    (hL : dateSfx.isSuffixOf L = false) :
    dget? (parse_changelog content) L =
      match lastLabeledIdx L (splitNl content) with
      | some j => some (bodyFromIdx (splitNl content) j)
      | none => none := by
  rw [parse_changelog_eq, dget?_foldlIns, lastWins_aux L hL (splitNl content) none []]
  cases hj : lastLabeledIdx L (splitNl content) with
  | some j => rfl
  | none => simp [dget?]

theorem keys_valEvents_filter (ls : List (List Char)) :
    ∀ (cur : Option (List Char)) (cont : List (List Char)),
      ((valEvents ls cur cont).map (fun e => e.1)).filter (fun k => !(dateSfx.isSuffixOf k)) =
        (cur.toList ++ headingLabels ls).filter (fun k => !(dateSfx.isSuffixOf k)) := by
  induction ls with
  | nil =>
    intro cur cont
    cases cur <;> simp [valEvents, headingLabels]
  | cons l ls ih =>
    intro cur cont
    cases hv : version_match l with
    | some lab_d =>
      have hlabels : headingLabels (l :: ls) = lab_d.1 :: headingLabels ls := by
        simp [headingLabels, List.filterMap_cons, labelOf, hv]
      simp only [valEvents, hv, List.map_append, List.filter_append]
      rw [ih (some lab_d.1) [], hlabels]
      cases hd2 : lab_d.2 with
      | none =>
        cases cur with
        | none => simp [List.filter_cons, List.filter_append]
        | some cs => simp [List.filter_cons, List.filter_append]
      | some dt =>
        by_cases ht : truthy dt
        · have hsfx := dateSfx_suffix_append lab_d.1
          cases cur with
          | none => simp [ht, List.filter_cons, List.filter_append, hsfx]
          | some cs => simp [ht, List.filter_cons, List.filter_append, hsfx]
        · cases cur with
          | none => simp [ht, List.filter_cons, List.filter_append]
          | some cs => simp [ht, List.filter_cons, List.filter_append]
    | none =>
      have hlabels : headingLabels (l :: ls) = headingLabels ls := by
        simp [headingLabels, List.filterMap_cons, labelOf, hv]
      simp only [valEvents, hv]
      cases cur with
      | some cs => rw [ih (some cs) (cont ++ [l]), hlabels]
      | none => rw [ih none cont, hlabels]

theorem emittedKeys_parse (content : List Char) :
    emittedKeys (parse_changelog content) =
      mergeKeys [] ((headingLabels (splitNl content)).filter
        (fun k => !(decide (k = strL "Unreleased")) && !(dateSfx.isSuffixOf k))) := by
  unfold emittedKeys
  rw [parse_changelog_eq, keys_foldlIns]
  simp only [List.map_nil]
  rw [filter_mergeKeys]
  have h1 : ∀ (X : List (List Char)),
      X.filter (fun k => !(decide (k = strL "Unreleased")) && !(dateSfx.isSuffixOf k)) =
        (X.filter (fun k => !(dateSfx.isSuffixOf k))).filter
          (fun k => !(decide (k = strL "Unreleased"))) := by
    intro X
    rw [List.filter_filter]
  simp only [h1]
  rw [keys_valEvents_filter (splitNl content) none []]
  simp [Option.toList]

theorem mergeKeys_nodup (ks : List (List Char)) :
    ∀ acc : List (List Char), acc.Nodup → (mergeKeys acc ks).Nodup := by
  induction ks with
  | nil => intro acc h; exact h
  | cons k ks ih =>
    intro acc h
    by_cases hk : k ∈ acc
    · have e1 : mergeKeys acc (k :: ks) = mergeKeys acc ks := by simp [mergeKeys, hk]
      rw [e1]
      exact ih acc h
    · have e1 : mergeKeys acc (k :: ks) = mergeKeys (acc ++ [k]) ks := by simp [mergeKeys, hk]
      rw [e1]
      apply ih
      rw [List.nodup_append]
      exact ⟨h, List.nodup_singleton k, by simpa using hk⟩

theorem parse_keys_nodup (content : List Char) :
    ((parse_changelog content).map (fun p => p.1)).Nodup := by
  rw [parse_changelog_eq, keys_foldlIns]
  exact mergeKeys_nodup _ _ (by simp)

theorem dget?_eq_none_iff (d : List (List Char × List Char)) (k : List Char) :
    dget? d k = none ↔ ¬(k ∈ d.map (fun p => p.1)) := by
  induction d with
  | nil => simp [dget?]
  | cons p rest ih =>
    by_cases hp : p.1 = k
    · simp [dget?, hp]
    · have h2 : ¬(k = p.1) := fun h => hp h.symm
      simp [dget?, hp, ih, h2]

theorem dget?_some_mem {d : List (List Char × List Char)} {k v : List Char}
    (h : dget? d k = some v) : k ∈ d.map (fun p => p.1) := by
  by_contra hc
  rw [← dget?_eq_none_iff] at hc
  rw [hc] at h
  exact absurd h (by simp)

/-! ### Region lemmas -/

theorem takeWhile_length_getD (p : List Char → Bool) :
    ∀ (ls : List (List Char)) (j : Nat), j < (ls.takeWhile p).length →
      p (ls.getD j []) = true := by
  intro ls
  induction ls with
  | nil => intro j h; simp [List.takeWhile] at h
  | cons l ls ih =>
    intro j h
    rw [List.takeWhile_cons] at h
    by_cases hp : p l
    · rw [if_pos hp] at h
      cases j with
      | zero => simpa using hp
      | succ j2 =>
        simp only [List.length_cons] at h
        exact ih j2 (Nat.lt_of_succ_lt_succ h)
    · rw [if_neg hp] at h
      simp at h

theorem header_section_disjoint (ls : List (List Char)) (i : Nat)
    (h : inHeaderB ls i = true) : inSectionB ls i = false := by
  rw [inHeaderB, decide_eq_true_iff] at h
  rw [inSectionB, Bool.eq_false_iff]
  intro hc
  rw [List.any_eq_true] at hc
  obtain ⟨j, hj, hhead⟩ := hc
  rw [List.mem_range] at hj
  have hj2 : j < headerLen ls := lt_of_le_of_lt (Nat.lt_succ_iff.mp hj) h
  rw [headerLen] at hj2
  have hpj := takeWhile_length_getD (fun l => !(hhOpen.isPrefixOf l)) ls j hj2
  rw [isHeading] at hhead
  cases hv : version_match (ls.getD j []) with
  | none => rw [hv] at hhead; exact absurd hhead (by simp)
  | some pr =>
    have hp := version_match_isPrefix hv
    have hpj2 : (!(hhOpen.isPrefixOf (ls.getD j []))) = true := hpj
    rw [hp] at hpj2
    exact absurd hpj2 (by simp)

theorem ownsLine_unique (ls : List (List Char)) (i j1 j2 : Nat)
    (h1 : ownsLine ls j1 i) (h2 : ownsLine ls j2 i) : j1 = j2 := by
  rcases h1 with ⟨hle1, hh1, hno1⟩
  rcases h2 with ⟨hle2, hh2, hno2⟩
  by_contra hne
  rcases Nat.lt_or_ge j1 j2 with hlt | hge
  · rw [hno1 j2 hlt hle2] at hh2
    exact absurd hh2 (by simp)
  · have hlt2 : j2 < j1 := lt_of_le_of_ne hge (fun h => hne h.symm)
    rw [hno2 j1 hlt2 hle1] at hh1
    exact absurd hh1 (by simp)

/-! ### Structure of the rewritten document -/

theorem flatten_map_splitNl_id (X : List (List Char)) (h : ∀ l ∈ X, NLc ∉ l) :
    (X.map splitNl).flatten = X := by
  induction X with
  | nil => rfl
  | cons x xs ih =>
    simp only [List.map_cons, List.flatten_cons]
    rw [splitNl_no_nl (h x (List.mem_cons_self x xs)),
      ih (fun l hl => h l (List.mem_cons_of_mem x hl))]
    rfl

theorem flatten_map_splitNl_cleaned (s : List Char) :
    ((cleanedLines s).map splitNl).flatten = cleanedLines s := by
  apply flatten_map_splitNl_id
  intro l hl
  rw [cleanedLines] at hl
  exact mem_splitNl_not_nl (List.mem_filter.mp hl).1

theorem flatten_map_splitNl_blocks (secs : List (List Char × List Char))
    (ks : List (List Char)) :
    ((ks.flatMap (fun k =>
        [sectionHeading secs k, []] ++ cleanedLines (dgetD secs k) ++ [[]])).map splitNl).flatten =
      ks.flatMap (fun k =>
        splitNl (sectionHeading secs k) ++ [[]] ++ cleanedLines (dgetD secs k) ++ [[]]) := by
  induction ks with
  | nil => rfl
  | cons k ks ih =>
    rw [List.flatMap_cons, List.flatMap_cons, List.map_append, List.flatten_append, ih]
    congr 1
    simp only [List.map_append, List.flatten_append, List.map_cons, List.map_nil,
      List.flatten_cons, List.flatten_nil]
    rw [flatten_map_splitNl_cleaned]
    have e1 : splitNl ([] : List Char) = [[]] := rfl
    rw [e1]
    simp [List.append_assoc]

theorem update_some_eq {content v d o : List Char}
    (h : update_changelog_file content v d = some o) :
    ∃ u, dget? (parse_changelog content) (strL "Unreleased") = some u ∧
      truthy (strip u) = true ∧
      o = create_new_changelog (extract_header_content content) (strip u) v d
            (parse_changelog content) (extract_footer_content content) := by
  unfold update_changelog_file at h
  cases hd : dget? (parse_changelog content) (strL "Unreleased") with
  | none => rw [hd] at h; exact absurd h (by simp)
  | some u =>
    rw [hd] at h
    dsimp only at h
    by_cases ht : truthy (strip u)
    · rw [if_pos ht] at h
      exact ⟨u, rfl, ht, (Option.some.inj h).symm⟩
    · rw [if_neg ht] at h
      exact absurd h (by simp)

theorem truthy_strip_not_blank {u : List Char} (h : truthy (strip u) = true) :
    cleanedLines (strip u) ≠ [] := by
  intro hc
  rw [cleanedLines_eq_nil_iff] at hc
  have h2 : strip (strip u) = [] := (strip_eq_nil_iff (strip u)).mpr hc
  rw [strip_idem] at h2
  rw [h2] at h
  exact absurd h (by simp [truthy])

theorem splitNl_create (header uc v d footer : List Char)
    (secs : List (List Char × List Char))
    (hu : truthy (strip uc) = true) (hcl : cleanedLines uc ≠ []) :
    splitNl (create_new_changelog header uc v d secs footer) =
      splitNl header ++ [[]] ++
      [strL "## [Unreleased]", [], strL "### Added", [], strL "### Changed", [],
       strL "### Fixed", []] ++
      splitNl (strL "## [" ++ v ++ strL "] - " ++ d) ++ [[]] ++
      cleanedLines uc ++ [[]] ++
      (emittedKeys secs).flatMap (fun k =>
        splitNl (sectionHeading secs k) ++ [[]] ++ cleanedLines (dgetD secs k) ++ [[]]) ++
      (if truthy (strip footer) then splitNl footer else []) := by
  have hemp : (cleanedLines uc).isEmpty = false := by
    cases he : (cleanedLines uc).isEmpty
    · rfl
    · exact absurd (List.isEmpty_iff.mp he) hcl
  unfold create_new_changelog newLines
  rw [splitNl_joinNl_flat (by simp)]
  simp only [hu, if_true, hemp, Bool.false_eq_true, if_false]
  simp only [List.map_append, List.flatten_append, List.map_cons, List.map_nil,
    List.flatten_cons, List.flatten_nil]
  rw [flatten_map_splitNl_cleaned, flatten_map_splitNl_blocks]
  have e1 : splitNl ([] : List Char) = [[]] := rfl
  have e2 : splitNl (strL "## [Unreleased]") = [strL "## [Unreleased]"] := by decide
  have e3 : splitNl (strL "### Added") = [strL "### Added"] := by decide
  have e4 : splitNl (strL "### Changed") = [strL "### Changed"] := by decide
  have e5 : splitNl (strL "### Fixed") = [strL "### Fixed"] := by decide
  rw [e1, e2, e3, e4, e5]
  cases hf : truthy (strip footer)
  · simp [List.append_assoc]
  · simp [List.append_assoc]

theorem update_lines {content v d o : List Char}
    (h : update_changelog_file content v d = some o) :
    ∃ u, dget? (parse_changelog content) (strL "Unreleased") = some u ∧
      splitNl o =
        splitNl (extract_header_content content) ++ [[]] ++
        [strL "## [Unreleased]", [], strL "### Added", [], strL "### Changed", [],
         strL "### Fixed", []] ++
        splitNl (strL "## [" ++ v ++ strL "] - " ++ d) ++ [[]] ++
        cleanedLines (strip u) ++ [[]] ++
        (emittedKeys (parse_changelog content)).flatMap (fun k =>
          splitNl (sectionHeading (parse_changelog content) k) ++ [[]] ++
          cleanedLines (dgetD (parse_changelog content) k) ++ [[]]) ++
        (if truthy (strip (extract_footer_content content))
         then splitNl (extract_footer_content content) else []) := by
  obtain ⟨u, hd, ht, ho⟩ := update_some_eq h
  refine ⟨u, hd, ?_⟩
  rw [ho]
  have ht2 : truthy (strip (strip u)) = true := by rw [strip_idem]; exact ht
  exact splitNl_create _ _ _ _ _ _ ht2 (truthy_strip_not_blank ht)

/-! ### Infix test for counterexamples and first-index lemmas -/

/-- Bool test for a contiguous occurrence of a block of lines in a document. -/
def infixCheck (a b : List (List Char)) : Bool :=
  (List.range (b.length + 1)).any (fun n => a.isPrefixOf (b.drop n))

theorem infixCheck_iff (a b : List (List Char)) :
    infixCheck a b = true ↔ ∃ x y, b = x ++ a ++ y := by
  rw [infixCheck, List.any_eq_true]
  constructor
  · rintro ⟨n, _, hp⟩
    rw [List.isPrefixOf_iff_prefix] at hp
    obtain ⟨y, hy⟩ := hp
    exact ⟨b.take n, y, by rw [List.append_assoc, hy, List.take_append_drop]⟩
  · rintro ⟨x, y, hb⟩
    refine ⟨x.length, ?_, ?_⟩
    · rw [List.mem_range, hb]
      simp only [List.length_append]
      omega
    · rw [List.isPrefixOf_iff_prefix, hb, List.append_assoc, List.drop_left]
      exact List.prefix_append a y

theorem firstIdxP_lt {p : List Char → Bool} :
    ∀ {ls : List (List Char)} {i : Nat}, firstIdxP p ls = some i →
      i < ls.length ∧ p (ls.getD i []) = true := by
  intro ls
  induction ls with
  | nil => intro i h; simp [firstIdxP] at h
  | cons l ls ih =>
    intro i h
    rw [firstIdxP] at h
    by_cases hp : p l
    · rw [if_pos hp] at h
      have : i = 0 := by simpa using (Option.some.inj h).symm
      subst this
      simpa using hp
    · rw [if_neg hp] at h
      cases hf : firstIdxP p ls with
      | none => rw [hf] at h; exact absurd h (by simp)
      | some i2 =>
        rw [hf] at h
        have : i = i2 + 1 := by simpa using (Option.some.inj h).symm
        subst this
        obtain ⟨h1, h2⟩ := ih hf
        exact ⟨by simpa using Nat.succ_lt_succ h1, by simpa using h2⟩

theorem firstIdxP_before {p : List Char → Bool} :
    ∀ {ls : List (List Char)} {i : Nat}, firstIdxP p ls = some i →
      ∀ k, k < i → p (ls.getD k []) = false := by
  intro ls
  induction ls with
  | nil => intro i h; simp [firstIdxP] at h
  | cons l ls ih =>
    intro i h k hk
    rw [firstIdxP] at h
    by_cases hp : p l
    · rw [if_pos hp] at h
      have : i = 0 := by simpa using (Option.some.inj h).symm
      subst this
      exact absurd hk (by simp)
    · rw [if_neg hp] at h
      cases hf : firstIdxP p ls with
      | none => rw [hf] at h; exact absurd h (by simp)
      | some i2 =>
        rw [hf] at h
        have : i = i2 + 1 := by simpa using (Option.some.inj h).symm
        subst this
        cases k with
        | zero => simpa using (by simpa using hp : p l = false)
        | succ k2 =>
          have := ih hf k2 (Nat.lt_of_succ_lt_succ hk)
          simpa using this

theorem footerScan_eq_drop :
    ∀ {ls : List (List Char)} {i : Nat}, firstIdxP hrMatch ls = some i →
      footerScan ls = ls.drop i := by
  intro ls
  induction ls with
  | nil => intro i h; simp [firstIdxP] at h
  | cons l ls ih =>
    intro i h
    rw [firstIdxP] at h
    by_cases hp : hrMatch l
    · rw [if_pos hp] at h
      have : i = 0 := by simpa using (Option.some.inj h).symm
      subst this
      simp [footerScan, hp]
    · rw [if_neg hp] at h
      cases hf : firstIdxP hrMatch ls with
      | none => rw [hf] at h; exact absurd h (by simp)
      | some i2 =>
        rw [hf] at h
        have : i = i2 + 1 := by simpa using (Option.some.inj h).symm
        subst this
        simp [footerScan, hp, ih hf]

theorem getD_eq_getElem_of_lt {ls : List (List Char)} {n : Nat} (h : n < ls.length) :
    ls.getD n [] = ls[n] := by
  simp [List.getD_eq_getElem?_getD, List.getElem?_eq_getElem h]

theorem drop_eq_getD_cons {ls : List (List Char)} {i : Nat} (h : i < ls.length) :
    ls.drop i = ls.getD i [] :: ls.drop (i + 1) := by
  rw [List.drop_eq_getElem_cons h, getD_eq_getElem_of_lt h]

theorem hrMatch_head {x : List Char} (hx : hrMatch x = true) :
    isBlankL x = false := by
  rw [hrMatch, Bool.and_eq_true, List.isPrefixOf_iff_prefix] at hx
  obtain ⟨⟨t, ht⟩, _⟩ := hx
  rw [← ht]
  rfl

theorem hr_footer_truthy {x : List Char} (rest : List (List Char))
    (hx : hrMatch x = true) : truthy (strip (joinNl (x :: rest))) = true := by
  rw [truthy_strip_eq]
  have hb := hrMatch_head hx
  rw [hrMatch, Bool.and_eq_true, List.isPrefixOf_iff_prefix] at hx
  obtain ⟨⟨t, ht⟩, _⟩ := hx
  cases rest with
  | nil =>
    have e1 : joinNl [x] = x := rfl
    rw [e1, hb]
    rfl
  | cons y ys =>
    have e1 : joinNl (x :: y :: ys) = x ++ NLc :: joinNl (y :: ys) := rfl
    rw [e1]
    have : isBlankL (x ++ NLc :: joinNl (y :: ys)) = false := by
      rw [isBlankL, List.all_append]
      rw [isBlankL] at hb
      simp [hb]
    rw [this]
    rfl

theorem splitNl_rstrip_joinNl {A : List (List Char)} (h : ∀ l ∈ A, NLc ∉ l) :
    splitNl (rstrip (joinNl A)) = rstripLinesSpec A := by
  cases hA : A with
  | nil => rfl
  | cons a A2 =>
    rw [← hA]
    rw [splitNl_rstrip, splitNl_joinNl (by rw [hA]; simp) h]

theorem header_lines (content : List Char) :
    splitNl (extract_header_content content) =
      rstripLinesSpec ((splitNl content).takeWhile (fun l => !(hhOpen.isPrefixOf l))) := by
  unfold extract_header_content
  apply splitNl_rstrip_joinNl
  intro l hl
  exact mem_splitNl_not_nl ((List.takeWhile_sublist _).subset hl)

/-! ### Claims -/

/-- Claim C2 (confirmed): the transform fails exactly when the document has no
    heading labeled Unreleased, or the stored Unreleased body is whitespace
    only; in the failure case the model returns none, which is the branch in
    which the script writes nothing and leaves the document unchanged. -/
theorem claim2_failure_iff (content new_version release_date : List Char) :
    update_changelog_file content new_version release_date = none ↔
      (lastLabeledIdx (strL "Unreleased") (splitNl content) = none ∨
       ∃ u, dget? (parse_changelog content) (strL "Unreleased") = some u ∧ strip u = []) := by
  have hLW := lastWins content (strL "Unreleased") (by decide)
  unfold update_changelog_file
  cases hd : dget? (parse_changelog content) (strL "Unreleased") with
  | none =>
    rw [hd] at hLW
    simp only
    constructor
    · intro _
      left
      cases hj : lastLabeledIdx (strL "Unreleased") (splitNl content) with
      | none => rfl
      | some j => rw [hj] at hLW; exact absurd hLW (by simp)
    · intro _
      trivial
  | some u =>
    rw [hd] at hLW
    dsimp only
    constructor
    · intro hnone
      by_cases ht : truthy (strip u)
      · rw [if_pos ht] at hnone
        exact absurd hnone (by simp)
      · right
        refine ⟨u, rfl, ?_⟩
        simpa [truthy, List.isEmpty_iff] using ht
    · intro hdisj
      rcases hdisj with hnone | ⟨u2, hu2, hs⟩
      · rw [hnone] at hLW
        exact absurd hLW (by simp)
      · have he : u = u2 := Option.some.inj hu2
        subst he
        rw [if_neg (by simp [truthy, List.isEmpty_iff, hs])]

/-- Claim C7 (confirmed): every successful output starts with the emitted
    header and its blank line, then the fresh Unreleased heading and the three
    fixed empty subsections Added, Changed, Fixed, each followed by a blank
    line, whatever the old Unreleased body contained. -/
theorem claim7_scaffold (content new_version release_date o : List Char)
    (h : update_changelog_file content new_version release_date = some o) :
    ∃ rest, splitNl o =
      splitNl (extract_header_content content) ++ [[]] ++
      [strL "## [Unreleased]", [], strL "### Added", [], strL "### Changed", [],
       strL "### Fixed", []] ++ rest := by
  obtain ⟨u, _, hlines⟩ := update_lines h
  refine ⟨splitNl (strL "## [" ++ new_version ++ strL "] - " ++ release_date) ++ [[]] ++
    cleanedLines (strip u) ++ [[]] ++
    (emittedKeys (parse_changelog content)).flatMap (fun k =>
      splitNl (sectionHeading (parse_changelog content) k) ++ [[]] ++
      cleanedLines (dgetD (parse_changelog content) k) ++ [[]]) ++
    (if truthy (strip (extract_footer_content content))
     then splitNl (extract_footer_content content) else []), ?_⟩
  rw [hlines]
  simp [List.append_assoc]

/-- Document for the C7 witness. -/
def w7doc : List Char := strL "# Hi\n## [Unreleased]\nx"

/-- Witness for claim C7 at a concrete document. -/
theorem claim7_witness :
    ∃ rest, splitNl ((update_changelog_file w7doc (strL "1.0") (strL "2024-01-15")).getD []) =
      splitNl (extract_header_content w7doc) ++ [[]] ++
      [strL "## [Unreleased]", [], strL "### Added", [], strL "### Changed", [],
       strL "### Fixed", []] ++ rest :=
  claim7_scaffold w7doc (strL "1.0") (strL "2024-01-15")
    ((update_changelog_file w7doc (strL "1.0") (strL "2024-01-15")).getD []) (by decide)

/-- Document for the C4 counterexample: the header slice ends with a blank
    line, which the right-strip of extract_header_content removes. -/
def c4doc : List Char := strL "# T\n\n## [Unreleased]\nx"

/-- Counterexample to claim C4 as stated: the header slice of the input is the
    title line followed by a blank line, but the output does not begin with
    those two lines followed by a further blank line, because the script
    right-strips the joined header before re-emitting it. -/
theorem claim4_cex :
    (update_changelog_file c4doc (strL "1.0") (strL "2024-01-15")).isSome = true ∧
    (splitNl c4doc).takeWhile (fun l => !(hhOpen.isPrefixOf l)) = [strL "# T", []] ∧
    ¬ ∃ rest, splitNl ((update_changelog_file c4doc (strL "1.0") (strL "2024-01-15")).getD []) =
        [strL "# T", [], []] ++ rest := by
  refine ⟨by decide, by decide, ?_⟩
  rintro ⟨rest, heq⟩
  have hp : [strL "# T", [], []].isPrefixOf
      (splitNl ((update_changelog_file c4doc (strL "1.0") (strL "2024-01-15")).getD [])) = true := by
    rw [List.isPrefixOf_iff_prefix]
    exact ⟨rest, heq.symm⟩
  exact absurd hp (by decide)

/-- Claim C4 as amended (corrected): the output begins with the header slice
    after the whole-header right-strip, that is with trailing blank lines
    dropped and the last remaining line right-stripped, followed by a blank
    line. -/
theorem claim4_header (content new_version release_date o : List Char)
    (h : update_changelog_file content new_version release_date = some o) :
    ∃ rest, splitNl o =
      rstripLinesSpec ((splitNl content).takeWhile (fun l => !(hhOpen.isPrefixOf l))) ++
      [[]] ++ rest := by
  obtain ⟨rest, hr⟩ := claim7_scaffold content new_version release_date o h
  refine ⟨[strL "## [Unreleased]", [], strL "### Added", [], strL "### Changed", [],
    strL "### Fixed", []] ++ rest, ?_⟩
  rw [hr, header_lines]
  simp [List.append_assoc]

/-- Document for the C4 witness. -/
def w4doc : List Char := strL "# Title\n\n## [Unreleased]\ny"

/-- Witness for the amended claim C4 at a concrete document. -/
theorem claim4_witness :
    ∃ rest, splitNl ((update_changelog_file w4doc (strL "2.0") (strL "2024-02-02")).getD []) =
      rstripLinesSpec ((splitNl w4doc).takeWhile (fun l => !(hhOpen.isPrefixOf l))) ++
      [[]] ++ rest :=
  claim4_header w4doc (strL "2.0") (strL "2024-02-02")
    ((update_changelog_file w4doc (strL "2.0") (strL "2024-02-02")).getD []) (by decide)

/-- Document for the C3 counterexample: a line of four hyphens is not matched
    by the horizontal-rule regex of the script, which requires exactly three. -/
def c3doc : List Char := strL "----\n## [Unreleased]\nx"

/-- Counterexample to claim C3 as stated: the input contains a line of four
    hyphens alone (three or more hyphens in the words of the claim), yet the
    rewritten output does not end with the text from that line onward; the
    script only treats exactly three hyphens as a horizontal rule, so the
    four-hyphen line stays in the header. -/
theorem claim3_cex :
    (update_changelog_file c3doc (strL "1.0") (strL "2024-01-15")).isSome = true ∧
    (splitNl c3doc).getD 0 [] = strL "----" ∧
    ¬ ∃ pre, splitNl ((update_changelog_file c3doc (strL "1.0") (strL "2024-01-15")).getD []) =
        pre ++ splitNl c3doc := by
  refine ⟨by decide, by decide, ?_⟩
  rintro ⟨pre, heq⟩
  have hs : (splitNl c3doc).isSuffixOf
      (splitNl ((update_changelog_file c3doc (strL "1.0") (strL "2024-01-15")).getD [])) = true := by
    rw [List.isSuffixOf_iff_suffix]
    exact ⟨pre, heq.symm⟩
  exact absurd hs (by decide)

/-- Claim C3 as amended (corrected): the footer marker is a line of exactly
    three hyphens followed only by whitespace; the scan runs over the whole
    document independently of section boundaries, and the suffix of the
    document from the first such line appears verbatim as the final block of
    every successful output. -/
theorem claim3_footer (content new_version release_date o : List Char) (i : Nat)
    (hi : firstIdxP hrMatch (splitNl content) = some i)
    (h : update_changelog_file content new_version release_date = some o) :
    hrMatch ((splitNl content).getD i []) = true ∧
    (∀ k, k < i → hrMatch ((splitNl content).getD k []) = false) ∧
    ∃ pre, splitNl o = pre ++ (splitNl content).drop i := by
  obtain ⟨hlen, hhr⟩ := firstIdxP_lt hi
  refine ⟨hhr, firstIdxP_before hi, ?_⟩
  obtain ⟨u, _, hlines⟩ := update_lines h
  have hfoot : extract_footer_content content = joinNl ((splitNl content).drop i) := by
    unfold extract_footer_content
    rw [footerScan_eq_drop hi]
  have hcons : (splitNl content).drop i =
      (splitNl content).getD i [] :: (splitNl content).drop (i + 1) := drop_eq_getD_cons hlen
  have htr : truthy (strip (extract_footer_content content)) = true := by
    rw [hfoot, hcons]
    exact hr_footer_truthy _ hhr
  have hnl : ∀ l ∈ (splitNl content).drop i, NLc ∉ l := by
    intro l hl
    exact mem_splitNl_not_nl (List.drop_subset i _ hl)
  have hsplit : splitNl (extract_footer_content content) = (splitNl content).drop i := by
    rw [hfoot]
    exact splitNl_joinNl (by rw [hcons]; simp) hnl
  refine ⟨splitNl (extract_header_content content) ++ [[]] ++
    [strL "## [Unreleased]", [], strL "### Added", [], strL "### Changed", [],
     strL "### Fixed", []] ++
    splitNl (strL "## [" ++ new_version ++ strL "] - " ++ release_date) ++ [[]] ++
    cleanedLines (strip u) ++ [[]] ++
    (emittedKeys (parse_changelog content)).flatMap (fun k =>
      splitNl (sectionHeading (parse_changelog content) k) ++ [[]] ++
      cleanedLines (dgetD (parse_changelog content) k) ++ [[]]), ?_⟩
  rw [hlines, htr, if_pos rfl, hsplit]

/-- Document for the C3 witness: the horizontal rule sits inside a section
    body, and the scan still captures it. -/
def w3doc : List Char := strL "## [Unreleased]\nx\n## [1.0] - 2020-01-01\nbody\n---\nfoot"

/-- Witness for the amended claim C3 at a concrete document. -/
theorem claim3_witness :
    hrMatch ((splitNl w3doc).getD 4 []) = true ∧
    (∀ k, k < 4 → hrMatch ((splitNl w3doc).getD k []) = false) ∧
    ∃ pre, splitNl ((update_changelog_file w3doc (strL "2.0") (strL "2024-06-01")).getD []) =
      pre ++ (splitNl w3doc).drop 4 :=
  claim3_footer w3doc (strL "2.0") (strL "2024-06-01")
    ((update_changelog_file w3doc (strL "2.0") (strL "2024-06-01")).getD []) 4
    (by decide) (by decide)

/-- Document for the C1 counterexample. -/
def c1doc : List Char := strL "## [Unreleased]\n- A"

/-- Counterexample to claim C1 as stated: the old Unreleased body is the
    single non-blank line, yet the output nowhere contains the new version
    heading immediately followed by that line and a trailing blank, because
    the script emits a blank line between the heading and the body. -/
theorem claim1_cex :
    (update_changelog_file c1doc (strL "1.0") (strL "2024-01-15")).isSome = true ∧
    ¬ ∃ pre post,
      splitNl ((update_changelog_file c1doc (strL "1.0") (strL "2024-01-15")).getD []) =
        pre ++ [strL "## [1.0] - 2024-01-15", strL "- A", []] ++ post := by
  refine ⟨by decide, ?_⟩
  rintro ⟨pre, post, heq⟩
  have h2 : infixCheck [strL "## [1.0] - 2024-01-15", strL "- A", []]
      (splitNl ((update_changelog_file c1doc (strL "1.0") (strL "2024-01-15")).getD [])) = true :=
    (infixCheck_iff _ _).mpr ⟨pre, post, heq⟩
  exact absurd h2 (by decide)

/-- Claim C1 as amended (corrected): when the stored Unreleased body has a
    non-blank line, the rewrite succeeds and the output contains the new
    version heading, then one blank line, then the non-blank lines of the body
    in order — verbatim except that the whole-body strip removes the leading
    whitespace of the first and the trailing whitespace of the last — then a
    trailing blank line. -/
theorem claim1_version_block (content new_version release_date u : List Char)
    (hnlv : NLc ∉ new_version) (hnld : NLc ∉ release_date)
    (hu : dget? (parse_changelog content) (strL "Unreleased") = some u)
    (hnb : (splitNl u).any (fun l => !(isBlankL l)) = true) :
    ∃ o, update_changelog_file content new_version release_date = some o ∧
      ∃ pre post, splitNl o =
        pre ++ [strL "## [" ++ new_version ++ strL "] - " ++ release_date] ++ [[]] ++
        stripEndsSpec ((splitNl u).filter (fun l => !(isBlankL l))) ++ [[]] ++ post := by
  have hall : u.all pyWS = false := by
    rw [all_pyWS_splitNl]
    obtain ⟨l, hl, hbl⟩ := List.any_eq_true.mp hnb
    cases hab : (splitNl u).all isBlankL
    · rfl
    · have h3 := List.all_eq_true.mp hab l hl
      rw [h3] at hbl
      exact absurd hbl (by simp)
  have htr : truthy (strip u) = true := by
    rw [truthy_strip_eq]
    have e1 : isBlankL u = false := hall
    rw [e1]
    rfl
  have hsome : update_changelog_file content new_version release_date =
      some (create_new_changelog (extract_header_content content) (strip u)
        new_version release_date (parse_changelog content)
        (extract_footer_content content)) := by
    unfold update_changelog_file
    rw [hu]
    dsimp only
    rw [if_pos htr]
  refine ⟨_, hsome, ?_⟩
  obtain ⟨u2, hu2, hlines⟩ := update_lines hsome
  rw [hu] at hu2
  have he : u = u2 := Option.some.inj hu2
  subst he
  have hnl : NLc ∉ strL "## [" ++ new_version ++ strL "] - " ++ release_date := by
    intro hm
    rcases List.mem_append.mp hm with hm1 | hm2
    · rcases List.mem_append.mp hm1 with hm3 | hm4
      · rcases List.mem_append.mp hm3 with hm5 | hm6
        · exact absurd hm5 (by decide)
        · exact hnlv hm6
      · exact absurd hm4 (by decide)
    · exact hnld hm2
  rw [splitNl_no_nl hnl, cleanedLines_strip, cleanedLines_eq] at hlines
  refine ⟨splitNl (extract_header_content content) ++ [[]] ++
    [strL "## [Unreleased]", [], strL "### Added", [], strL "### Changed", [],
     strL "### Fixed", []],
    (emittedKeys (parse_changelog content)).flatMap (fun k =>
      splitNl (sectionHeading (parse_changelog content) k) ++ [[]] ++
      cleanedLines (dgetD (parse_changelog content) k) ++ [[]]) ++
    (if truthy (strip (extract_footer_content content))
     then splitNl (extract_footer_content content) else []), ?_⟩
  rw [hlines]
  simp [List.append_assoc]

/-- Document for the C1 witness: the first body line is indented and the last
    has trailing whitespace, so the whole-body strip shows in the output. -/
def w1doc : List Char := strL "## [Unreleased]\n\n  - A\n- B  "

/-- Witness for the amended claim C1 at a concrete document. -/
theorem claim1_witness :
    ∃ o, update_changelog_file w1doc (strL "1.0") (strL "2024-01-15") = some o ∧
      ∃ pre post, splitNl o =
        pre ++ [strL "## [" ++ strL "1.0" ++ strL "] - " ++ strL "2024-01-15"] ++ [[]] ++
        stripEndsSpec ((splitNl (strL "\n  - A\n- B  ")).filter (fun l => !(isBlankL l))) ++
        [[]] ++ post :=
  claim1_version_block w1doc (strL "1.0") (strL "2024-01-15") (strL "\n  - A\n- B  ")
    (by decide) (by decide) (by decide) (by decide)

/-- Document for the C6 counterexample: a genuine section whose label ends in
    the date suffix. -/
def c6doc : List Char := strL "## [Unreleased]\nx\n## [v_date]\nB\n## [w]\nc"

/-- Counterexample to claim C6 as stated: the input has a section labeled
    v_date, but no line of the successful output re-emits a heading for it
    (any such heading would start with the bracketed label opener for
    v_date), because the re-emission loop skips every key that ends with the
    date suffix. -/
theorem claim6_cex :
    (update_changelog_file c6doc (strL "1.0") (strL "2024-01-01")).isSome = true ∧
    strL "v_date" ∈ headingLabels (splitNl c6doc) ∧
    ((splitNl ((update_changelog_file c6doc (strL "1.0") (strL "2024-01-01")).getD [])).all
      (fun l => !((strL "## [v_date]").isPrefixOf l))) = true :=
  ⟨by decide, by decide, by decide⟩

/-- Claim C6 as amended (corrected): the emitted section keys are exactly the
    heading labels of the input in first-occurrence order, excluding the
    Unreleased label and every label that ends with the date suffix; the
    output re-emits, in that order, one block per remaining key, with the date
    suffix on the heading exactly when a date entry is recorded for it. -/
theorem claim6_sections (content new_version release_date o : List Char)
    (h : update_changelog_file content new_version release_date = some o) :
    emittedKeys (parse_changelog content) =
      mergeKeys [] ((headingLabels (splitNl content)).filter
        (fun k => !(decide (k = strL "Unreleased")) && !(dateSfx.isSuffixOf k))) ∧
    ∃ pre post, splitNl o =
      pre ++ (emittedKeys (parse_changelog content)).flatMap (fun k =>
        splitNl (sectionHeading (parse_changelog content) k) ++ [[]] ++
        cleanedLines (dgetD (parse_changelog content) k) ++ [[]]) ++ post := by
  refine ⟨emittedKeys_parse content, ?_⟩
  obtain ⟨u, _, hlines⟩ := update_lines h
  refine ⟨splitNl (extract_header_content content) ++ [[]] ++
    [strL "## [Unreleased]", [], strL "### Added", [], strL "### Changed", [],
     strL "### Fixed", []] ++
    splitNl (strL "## [" ++ new_version ++ strL "] - " ++ release_date) ++ [[]] ++
    cleanedLines (strip u) ++ [[]],
    (if truthy (strip (extract_footer_content content))
     then splitNl (extract_footer_content content) else []), ?_⟩
  rw [hlines]

/-- Document for the C6 witness: two dated and undated sections in order. -/
def w6doc : List Char := strL "## [Unreleased]\nx\n## [B]\nb\n## [A] - 2020-05-05\na"

/-- Witness for the amended claim C6 at a concrete document. -/
theorem claim6_witness :
    emittedKeys (parse_changelog w6doc) =
      mergeKeys [] ((headingLabels (splitNl w6doc)).filter
        (fun k => !(decide (k = strL "Unreleased")) && !(dateSfx.isSuffixOf k))) ∧
    ∃ pre post,
      splitNl ((update_changelog_file w6doc (strL "1.0") (strL "2024-01-01")).getD []) =
        pre ++ (emittedKeys (parse_changelog w6doc)).flatMap (fun k =>
          splitNl (sectionHeading (parse_changelog w6doc) k) ++ [[]] ++
          cleanedLines (dgetD (parse_changelog w6doc) k) ++ [[]]) ++ post :=
  claim6_sections w6doc (strL "1.0") (strL "2024-01-01")
    ((update_changelog_file w6doc (strL "1.0") (strL "2024-01-01")).getD []) (by decide)

/-- Decidability of the region partition property, used to evaluate it on a
    concrete document. -/
instance regionPartitionDecidable (ls : List (List Char)) :
    Decidable (regionPartition ls) := by
  unfold regionPartition
  infer_instance

/-- Document for the C5 counterexample: the horizontal rule inside the
    Unreleased body is captured both by the section parse and by the footer
    scan. -/
def c5doc : List Char := strL "## [Unreleased]\nx\n---\nfoot"

/-- Counterexample to claim C5 as stated: in this document the partition
    reading fails, because the horizontal-rule line at index 2 lies in a
    section body and in the footer at the same time. -/
theorem claim5_cex : ¬ regionPartition (splitNl c5doc) := by decide

/-- Claim C5 as amended (corrected): the parsed keys are unique; the header
    region is disjoint from the section region; the owning section of a line
    is unique; and when a label occurs on several headings, the lookup of that
    label yields the body recorded after its last heading.  The footer scan is
    independent and may overlap the other regions. -/
theorem claim5_regions (content L : List Char) (j : Nat)
    (hL : dateSfx.isSuffixOf L = false)
    (hj : lastLabeledIdx L (splitNl content) = some j) :
    ((parse_changelog content).map (fun p => p.1)).Nodup ∧
    (∀ i, inHeaderB (splitNl content) i = true → inSectionB (splitNl content) i = false) ∧
    (∀ i j1 j2, ownsLine (splitNl content) j1 i → ownsLine (splitNl content) j2 i → j1 = j2) ∧
    dget? (parse_changelog content) L = some (bodyFromIdx (splitNl content) j) := by
  refine ⟨parse_keys_nodup content, fun i hi => header_section_disjoint _ i hi,
    fun i j1 j2 h1 h2 => ownsLine_unique _ i j1 j2 h1 h2, ?_⟩
  rw [lastWins content L hL, hj]

/-- Document for the C5 witness: the label A occurs twice and the body of the
    second occurrence wins. -/
def w5doc : List Char := strL "## [Unreleased]\nu\n## [A]\nfirst\n## [A]\nsecond"

/-- Witness for the amended claim C5 at a concrete document. -/
theorem claim5_witness :
    dget? (parse_changelog w5doc) (strL "A") = some (bodyFromIdx (splitNl w5doc) 4) :=
  (claim5_regions w5doc (strL "A") 4 (by decide) (by decide)).2.2.2

/-! ### Lemmas for the orphaned-region claim -/

theorem takeWhile_eq_take (p : List Char → Bool) :
    ∀ ls : List (List Char), ls.takeWhile p = ls.take (ls.takeWhile p).length := by
  intro ls
  induction ls with
  | nil => rfl
  | cons l ls ih =>
    rw [List.takeWhile_cons]
    by_cases hp : p l
    · rw [if_pos hp, List.length_cons, List.take_succ_cons, ← ih]
    · rw [if_neg hp]
      rfl

theorem takeWhile_append_all (p : List Char → Bool) (B : List (List Char)) :
    ∀ A, (∀ l ∈ A, p l = true) → List.takeWhile p (A ++ B) = A ++ List.takeWhile p B := by
  intro A
  induction A with
  | nil => intro _; rfl
  | cons a A ih =>
    intro h
    rw [List.cons_append, List.takeWhile_cons, if_pos (h a (List.mem_cons_self a A)),
      ih (fun l hl => h l (List.mem_cons_of_mem a hl)), List.cons_append]

theorem parseLoop_skip (B : List (List Char)) :
    ∀ A, (∀ l ∈ A, version_match l = none) →
      ∀ (cont : List (List Char)) (secs : List (List Char × List Char)),
        parseLoop (A ++ B) none cont secs = parseLoop B none cont secs := by
  intro A
  induction A with
  | nil => intro _ cont secs; rfl
  | cons a A ih =>
    intro h cont secs
    have ha : version_match a = none := h a (List.mem_cons_self a A)
    rw [List.cons_append]
    show parseLoop (a :: (A ++ B)) none cont secs = _
    simp only [parseLoop, ha]
    exact ih (fun l hl => h l (List.mem_cons_of_mem a hl)) cont secs

theorem footerScan_skip (B : List (List Char)) :
    ∀ A, (∀ l ∈ A, hrMatch l = false) → footerScan (A ++ B) = footerScan B := by
  intro A
  induction A with
  | nil => intro _; rfl
  | cons a A ih =>
    intro h
    rw [List.cons_append]
    show footerScan (a :: (A ++ B)) = _
    simp only [footerScan, h a (List.mem_cons_self a A), Bool.false_eq_true, if_false]
    exact ih (fun l hl => h l (List.mem_cons_of_mem a hl))

theorem isHeading_false_none {l : List Char} (h : isHeading l = false) :
    version_match l = none := by
  rw [isHeading] at h
  cases hv : version_match l with
  | none => rfl
  | some pr => rw [hv] at h; exact absurd h (by simp)

/-- Claim C10 (confirmed): a line starting with the heading opener but without
    a closing bracket ends the header without opening a section; the lines
    from it up to the first well-formed heading belong to neither the header
    nor any section, and — when the footer scan does not capture them — the
    rewrite result is the same as if those lines were deleted from the input. -/
theorem claim10_orphans (content new_version release_date : List Char) (m h : Nat)
    (hm : headerLen (splitNl content) = m)
    (hh : firstIdxP (fun l => isHeading l) (splitNl content) = some h)
    (hmh : m < h)
    (hhr : ∀ l ∈ (splitNl content).take h, hrMatch l = false) :
    (∀ i, m ≤ i → i < h →
      inHeaderB (splitNl content) i = false ∧ inSectionB (splitNl content) i = false) ∧
    update_changelog_file content new_version release_date =
      update_changelog_file
        (joinNl ((splitNl content).take m ++ (splitNl content).drop h))
        new_version release_date := by
  obtain ⟨hlen, hheadb⟩ := firstIdxP_lt hh
  have hhead2 : isHeading ((splitNl content).getD h []) = true := hheadb
  constructor
  · intro i hmi hih
    constructor
    · rw [inHeaderB, hm]
      simp [Nat.not_lt.mpr hmi]
    · rw [inSectionB]
      cases hb : (List.range (i + 1)).any
          (fun j => isHeading ((splitNl content).getD j []))
      · rfl
      · exfalso
        obtain ⟨j, hjmem, hjh⟩ := List.any_eq_true.mp hb
        rw [List.mem_range] at hjmem
        have hji : j < h := lt_of_le_of_lt (Nat.lt_succ_iff.mp hjmem) hih
        have hfb : isHeading ((splitNl content).getD j []) = false := firstIdxP_before hh j hji
        rw [hfb] at hjh
        exact absurd hjh (by simp)
  · set ls := splitNl content with hls
    have hmod_nl : ∀ l ∈ ls.take m ++ ls.drop h, NLc ∉ l := by
      intro l hl
      rcases List.mem_append.mp hl with h1 | h1
      · exact mem_splitNl_not_nl (List.take_subset m ls h1)
      · exact mem_splitNl_not_nl (List.drop_subset h ls h1)
    have hmod_ne : ls.take m ++ ls.drop h ≠ [] := by
      intro hc
      have h2 : ls.drop h = [] := (List.append_eq_nil.mp hc).2
      have h3 : ls.length ≤ h := List.drop_eq_nil_iff.mp h2
      exact absurd hlen (Nat.not_lt.mpr h3)
    have hmodsplit : splitNl (joinNl (ls.take m ++ ls.drop h)) = ls.take m ++ ls.drop h :=
      splitNl_joinNl hmod_ne hmod_nl
    have htake : ls.takeWhile (fun l => !(hhOpen.isPrefixOf l)) = ls.take m := by
      rw [takeWhile_eq_take]
      have e1 : (ls.takeWhile (fun l => !(hhOpen.isPrefixOf l))).length = m := hm
      rw [e1]
    have htakeall : ∀ l ∈ ls.take m, (!(hhOpen.isPrefixOf l)) = true := by
      intro l hl
      rw [← htake] at hl
      exact List.mem_takeWhile_imp (p := fun l => !(hhOpen.isPrefixOf l)) hl
    have htakeh : ∀ l ∈ ls.take h, isHeading l = false := by
      intro l hl
      obtain ⟨n, hn, hx⟩ := List.mem_iff_getElem.mp hl
      have hn2 : n < h := by
        rw [List.length_take] at hn
        exact lt_of_lt_of_le hn (Nat.min_le_left h ls.length)
      have hnlen : n < ls.length := lt_trans hn2 hlen
      have hfb : isHeading (ls.getD n []) = false := firstIdxP_before hh n hn2
      rw [getD_eq_getElem_of_lt hnlen] at hfb
      rw [← List.getElem_take ls (h := hn), hx] at hfb
      exact hfb
    have hm_sub : ∀ l ∈ ls.take m, l ∈ ls.take h := by
      intro l hl
      have e1 : ls.take m = (ls.take h).take m := by
        rw [List.take_take, Nat.min_eq_left (le_of_lt hmh)]
      rw [e1] at hl
      exact List.take_subset m _ hl
    have hparse : parse_changelog content = parse_changelog (joinNl (ls.take m ++ ls.drop h)) := by
      unfold parse_changelog
      rw [hmodsplit, ← hls]
      conv_lhs => rw [← List.take_append_drop h ls]
      rw [parseLoop_skip (ls.drop h) (ls.take h)
        (fun l hl => isHeading_false_none (htakeh l hl)) [] []]
      rw [parseLoop_skip (ls.drop h) (ls.take m)
        (fun l hl => isHeading_false_none (htakeh l (hm_sub l hl))) [] []]
    have hheader : extract_header_content content =
        extract_header_content (joinNl (ls.take m ++ ls.drop h)) := by
      unfold extract_header_content
      rw [hmodsplit, ← hls]
      have hdropcons : ls.drop h = ls.getD h [] :: ls.drop (h + 1) := drop_eq_getD_cons hlen
      have hpfx : (!(hhOpen.isPrefixOf (ls.getD h []))) = false := by
        cases hv : version_match (ls.getD h []) with
        | none => rw [isHeading, hv] at hhead2; exact absurd hhead2 (by simp)
        | some pr =>
          have h4 := version_match_isPrefix hv
          rw [h4]
          rfl
      have ht1 : List.takeWhile (fun l => !(hhOpen.isPrefixOf l)) (ls.drop h) = [] := by
        rw [hdropcons, List.takeWhile_cons, hpfx]
        rfl
      rw [takeWhile_append_all _ _ _ htakeall, ht1, List.append_nil, htake]
    have hfooter : extract_footer_content content =
        extract_footer_content (joinNl (ls.take m ++ ls.drop h)) := by
      unfold extract_footer_content
      rw [hmodsplit, ← hls]
      conv_lhs => rw [← List.take_append_drop h ls]
      rw [footerScan_skip (ls.drop h) (ls.take h) hhr,
        footerScan_skip (ls.drop h) (ls.take m) (fun l hl => hhr l (hm_sub l hl))]
    unfold update_changelog_file
    rw [hparse, hheader, hfooter]

/-- Document for the C10 witness: a malformed heading opener precedes the
    first well-formed heading. -/
def w10doc : List Char := strL "# T\n## [broken\njunk\n## [Unreleased]\nx"

/-- Witness for claim C10 at a concrete document. -/
theorem claim10_witness :
    (∀ i, 1 ≤ i → i < 3 →
      inHeaderB (splitNl w10doc) i = false ∧ inSectionB (splitNl w10doc) i = false) ∧
    update_changelog_file w10doc (strL "1.0") (strL "2024-01-01") =
      update_changelog_file
        (joinNl ((splitNl w10doc).take 1 ++ (splitNl w10doc).drop 3))
        (strL "1.0") (strL "2024-01-01") :=
  claim10_orphans w10doc (strL "1.0") (strL "2024-01-01") 1 3
    (by decide) (by decide) (by decide) (by decide)

/-! ### The synthetic date key and sections labeled with the date suffix -/

theorem dateKey_clean (L : List Char) :
    ∀ (ls : List (List Char)),
      (∀ l ∈ ls, ∀ pr : List Char × Option (List Char), version_match l = some pr →
        ¬(pr.1 = L ++ dateSfx) ∧ ¬(pr.1 = L ∧ dateTruthy pr.2 = true)) →
      ∀ (cur : Option (List Char)) (cont : List (List Char)),
        lastLookup (valEvents ls cur cont) (L ++ dateSfx) =
          if cur = some (L ++ dateSfx) then
            some (joinNl (cont ++ ls.takeWhile (fun x => !(isHeading x))))
          else none := by
  intro ls
  induction ls with
  | nil =>
    intro _ cur cont
    cases cur with
    | none => simp [valEvents, lastLookup]
    | some cs =>
      by_cases h2 : cs = L ++ dateSfx
      · subst h2
        simp [valEvents, lastLookup]
      · have h3 : ¬(some cs = some (L ++ dateSfx)) := by simpa using h2
        simp [valEvents, lastLookup, h2, h3]
  | cons l ls ih =>
    intro hno cur cont
    have hnotail : ∀ l2 ∈ ls, ∀ pr : List Char × Option (List Char),
        version_match l2 = some pr →
        ¬(pr.1 = L ++ dateSfx) ∧ ¬(pr.1 = L ∧ dateTruthy pr.2 = true) :=
      fun l2 hl2 => hno l2 (List.mem_cons_of_mem l hl2)
    cases hv : version_match l with
    | some lab_d =>
      have hhead : isHeading l = true := by simp [isHeading, hv]
      obtain ⟨hX, hD⟩ := hno l (List.mem_cons_self l ls) lab_d hv
      have hXs : ¬(some lab_d.1 = some (L ++ dateSfx)) := by simpa using hX
      simp only [valEvents, hv]
      rw [lastLookup_append, lastLookup_append, ih hnotail (some lab_d.1) []]
      rw [if_neg hXs]
      have hdate : lastLookup
          (match lab_d.2 with
           | some dt => if truthy dt then [(lab_d.1 ++ dateSfx, dt)] else []
           | none => []) (L ++ dateSfx) = none := by
        cases hd2 : lab_d.2 with
        | none => rfl
        | some dt =>
          by_cases ht : truthy dt
          · simp only [ht, if_true, lastLookup]
            have hne : ¬(lab_d.1 ++ dateSfx = L ++ dateSfx) := by
              intro hc
              have : lab_d.1 = L := List.append_cancel_right hc
              exact hD ⟨this, by rw [hd2]; exact ht⟩
            simp [hne]
          · simp [ht, lastLookup]
      rw [hdate]
      have htw : (l :: ls).takeWhile (fun x => !(isHeading x)) = [] := by
        rw [List.takeWhile_cons]
        simp [hhead]
      cases cur with
      | none => simp [lastLookup]
      | some cs =>
        by_cases hcs : cs = L ++ dateSfx
        · subst hcs
          simp [lastLookup, htw]
        · have h3 : ¬(some cs = some (L ++ dateSfx)) := by simpa using hcs
          simp [lastLookup, hcs, h3]
    | none =>
      have hhead : isHeading l = false := by simp [isHeading, hv]
      have htw : (l :: ls).takeWhile (fun x => !(isHeading x)) =
          l :: ls.takeWhile (fun x => !(isHeading x)) := by
        rw [List.takeWhile_cons]
        simp [hhead]
      simp only [valEvents, hv]
      cases cur with
      | some cs =>
        rw [ih hnotail (some cs) (cont ++ [l])]
        by_cases hcs : cs = L ++ dateSfx
        · subst hcs
          simp [htw, List.append_assoc]
        · have h3 : ¬(some cs = some (L ++ dateSfx)) := by simpa using hcs
          simp [h3]
      | none =>
        rw [ih hnotail none cont]
        simp

theorem dateKey_body (L : List Char) :
    ∀ (A : List (List Char)) (l : List Char) (B : List (List Char)),
      labelOf l = some (L ++ dateSfx) →
      (∀ l2 ∈ B, ∀ pr : List Char × Option (List Char), version_match l2 = some pr →
        ¬(pr.1 = L ++ dateSfx) ∧ ¬(pr.1 = L ∧ dateTruthy pr.2 = true)) →
      ∀ (cur : Option (List Char)) (cont : List (List Char)),
        lastLookup (valEvents (A ++ l :: B) cur cont) (L ++ dateSfx) =
          some (joinNl (B.takeWhile (fun x => !(isHeading x)))) := by
  intro A
  induction A with
  | nil =>
    intro l B hlab hB cur cont
    rw [labelOf] at hlab
    cases hv : version_match l with
    | none => rw [hv] at hlab; exact absurd hlab (by simp)
    | some pr =>
      rw [hv] at hlab
      have hpr : pr.1 = L ++ dateSfx := by simpa using hlab
      rw [List.nil_append]
      simp only [valEvents, hv]
      rw [lastLookup_append, lastLookup_append, dateKey_clean L B hB (some pr.1) []]
      rw [hpr]
      simp
  | cons a A ih =>
    intro l B hlab hB cur cont
    rw [List.cons_append]
    cases hv : version_match a with
    | some lab_d =>
      simp only [valEvents, hv]
      rw [lastLookup_append, lastLookup_append, ih l B hlab hB (some lab_d.1) []]
    | none =>
      simp only [valEvents, hv]
      cases cur with
      | some cs => exact ih l B hlab hB (some cs) (cont ++ [a])
      | none => exact ih l B hlab hB none cont

/-- Document for the C8 counterexample: the section labeled with the date
    suffix comes before a dated heading of the prefix label. -/
def c8doc : List Char := strL "## [Unreleased]\nx\n## [v_date]\nB\n## [v] - 2020-01-01\ny"

/-- Counterexample to claim C8 as stated: the body of the v_date section does
    not overwrite the recorded date of section v, because the later dated
    heading writes the date key again; the emitted heading keeps the inline
    date and the body string never reaches the output. -/
theorem claim8_cex :
    (update_changelog_file c8doc (strL "9.9") (strL "2024-01-01")).isSome = true ∧
    strL "## [v] - 2020-01-01" ∈
      splitNl ((update_changelog_file c8doc (strL "9.9") (strL "2024-01-01")).getD []) ∧
    ¬ (strL "## [v] - B" ∈
      splitNl ((update_changelog_file c8doc (strL "9.9") (strL "2024-01-01")).getD [])) :=
  ⟨by decide, by decide, by decide⟩

/-- Claim C8 as amended (corrected): a section whose label ends with the date
    suffix is never re-emitted as a section of the output; and provided no
    later heading reuses that label and no later truthy-dated heading of the
    prefix label follows it, its recorded body is the last write to the
    synthetic date key, so the prefix label is re-emitted with the body string
    as its date suffix. -/
theorem claim8_date_sections (content L : List Char) (A : List (List Char))
    (l : List Char) (B : List (List Char))
    (hsplit : splitNl content = A ++ l :: B)
    (hlab : labelOf l = some (L ++ dateSfx))
    (hB : ∀ l2 ∈ B, ∀ pr : List Char × Option (List Char), version_match l2 = some pr →
      ¬(pr.1 = L ++ dateSfx) ∧ ¬(pr.1 = L ∧ dateTruthy pr.2 = true)) :
    (L ++ dateSfx) ∉ emittedKeys (parse_changelog content) ∧
    dget? (parse_changelog content) (L ++ dateSfx) =
      some (joinNl (B.takeWhile (fun x => !(isHeading x)))) ∧
    sectionHeading (parse_changelog content) L =
      strL "## [" ++ L ++ strL "] - " ++ joinNl (B.takeWhile (fun x => !(isHeading x))) := by
  have hmain : dget? (parse_changelog content) (L ++ dateSfx) =
      some (joinNl (B.takeWhile (fun x => !(isHeading x)))) := by
    rw [parse_changelog_eq, dget?_foldlIns, hsplit, dateKey_body L A l B hlab hB none []]
  refine ⟨?_, hmain, ?_⟩
  · intro hmem
    rw [emittedKeys] at hmem
    have h2 := (List.mem_filter.mp hmem).2
    rw [dateSfx_suffix_append] at h2
    exact absurd h2 (by simp)
  · rw [sectionHeading, hmain]

/-- Document for the C8 witness: the date-suffixed section is last, so its
    body wins over the earlier inline date. -/
def w8doc : List Char := strL "## [Unreleased]\nx\n## [v] - 2020-01-01\ny\n## [v_date]\nB"

/-- Witness for the amended claim C8 at a concrete document. -/
theorem claim8_witness :
    (strL "v" ++ dateSfx) ∉ emittedKeys (parse_changelog w8doc) ∧
    dget? (parse_changelog w8doc) (strL "v" ++ dateSfx) =
      some (joinNl (([strL "B"]).takeWhile (fun x => !(isHeading x)))) ∧
    sectionHeading (parse_changelog w8doc) (strL "v") =
      strL "## [" ++ strL "v" ++ strL "] - " ++
        joinNl (([strL "B"]).takeWhile (fun x => !(isHeading x))) := by
  apply claim8_date_sections w8doc (strL "v")
    [strL "## [Unreleased]", strL "x", strL "## [v] - 2020-01-01", strL "y"]
    (strL "## [v_date]") [strL "B"]
  · decide
  · decide
  · intro l2 hl2 pr hpr
    rw [List.mem_singleton] at hl2
    subst hl2
    rw [show version_match (strL "B") = none from by decide] at hpr
    exact absurd hpr (by simp)

/-! ### The footer overlapping a section body -/

theorem lastLabeledIdx_none_of (L : List Char) :
    ∀ ls : List (List Char), (∀ k, k < ls.length → isHeading (ls.getD k []) = false) →
      lastLabeledIdx L ls = none := by
  intro ls
  induction ls with
  | nil => intro _; rfl
  | cons l ls ih =>
    intro h
    have h0 : isHeading l = false := by
      have := h 0 (by simp)
      simpa using this
    have hlab : labelOf l = none := by
      rw [labelOf, isHeading_false_none h0]
      rfl
    have htail : lastLabeledIdx L ls = none := by
      apply ih
      intro k hk
      have := h (k + 1) (by simpa using Nat.succ_lt_succ hk)
      simpa using this
    rw [lastLabeledIdx, htail, hlab]
    simp

theorem lastLabeledIdx_of_last (L : List Char) :
    ∀ (ls : List (List Char)) (j : Nat),
      labelOf (ls.getD j []) = some L → j < ls.length →
      (∀ k, j < k → k < ls.length → isHeading (ls.getD k []) = false) →
      lastLabeledIdx L ls = some j := by
  intro ls
  induction ls with
  | nil => intro j _ hj _; simp at hj
  | cons l ls ih =>
    intro j hlab hj hafter
    cases j with
    | zero =>
      have hlab0 : labelOf l = some L := by simpa using hlab
      have hnone : lastLabeledIdx L ls = none := by
        apply lastLabeledIdx_none_of
        intro k hk
        have := hafter (k + 1) (Nat.succ_pos k) (by simpa using Nat.succ_lt_succ hk)
        simpa using this
      rw [lastLabeledIdx, hnone, hlab0]
      simp
    | succ j2 =>
      have hlab2 : labelOf (ls.getD j2 []) = some L := by
        rw [← @List.getD_cons_succ (List Char) l ls j2 []]
        exact hlab
      have hj2 : j2 < ls.length := by simpa using Nat.lt_of_succ_lt_succ hj
      have hafter2 : ∀ k, j2 < k → k < ls.length → isHeading (ls.getD k []) = false := by
        intro k hk hk2
        have := hafter (k + 1) (by simpa using Nat.succ_lt_succ hk)
          (by simpa using Nat.succ_lt_succ hk2)
        simpa using this
      rw [lastLabeledIdx, ih j2 hlab2 hj2 hafter2]

theorem takeWhile_all_self (p : List Char → Bool) (X : List (List Char))
    (h : ∀ x ∈ X, p x = true) : X.takeWhile p = X := by
  have h2 := takeWhile_append_all p [] X h
  rw [List.append_nil, List.takeWhile_nil, List.append_nil] at h2
  exact h2

theorem heading_not_hr {l : List Char} {pr : List Char × Option (List Char)}
    (h : version_match l = some pr) : hrMatch l = false := by
  have hp := version_match_isPrefix h
  rw [List.isPrefixOf_iff_prefix] at hp
  obtain ⟨t, ht⟩ := hp
  rw [hrMatch]
  cases hhr2 : (strL "---").isPrefixOf l
  · simp
  · rw [List.isPrefixOf_iff_prefix] at hhr2
    obtain ⟨t2, ht2⟩ := hhr2
    exfalso
    rw [← ht] at ht2
    simp [hhOpen, strL] at ht2

/-- Claim C9 as amended (corrected): when the first horizontal-rule line lies
    inside the body of the last-opened section, whose label is neither
    Unreleased nor ends with the date suffix, a successful output contains the
    lines from the rule to the end of input twice: once with blank lines
    dropped, inside that section's re-emitted body, and once verbatim as the
    final block. -/
theorem claim9_footer_twice (content new_version release_date o L : List Char)
    (dOpt : Option (List Char)) (i j : Nat)
    (hi : firstIdxP hrMatch (splitNl content) = some i)
    (hj : version_match ((splitNl content).getD j []) = some (L, dOpt))
    (hji : j ≤ i)
    (hafter : ∀ k, j < k → k < (splitNl content).length →
      isHeading ((splitNl content).getD k []) = false)
    (hLU : ¬(L = strL "Unreleased"))
    (hLd : dateSfx.isSuffixOf L = false)
    (h : update_changelog_file content new_version release_date = some o) :
    ∃ pre mid, splitNl o =
      pre ++ ((splitNl content).drop i).filter (fun l => !(isBlankL l)) ++ mid ++
      (splitNl content).drop i := by
  obtain ⟨hlen, hhr⟩ := firstIdxP_lt hi
  have hji2 : j < i := by
    rcases Nat.lt_or_ge j i with h1 | h1
    · exact h1
    · have hje : j = i := Nat.le_antisymm hji h1
      rw [hje] at hj
      rw [heading_not_hr hj] at hhr
      exact absurd hhr (by simp)
  have hjlen : j < (splitNl content).length := lt_trans hji2 hlen
  have hlab : labelOf ((splitNl content).getD j []) = some L := by
    rw [labelOf, hj]
    rfl
  have hlli : lastLabeledIdx L (splitNl content) = some j :=
    lastLabeledIdx_of_last L (splitNl content) j hlab hjlen hafter
  have hdropnh : ∀ x ∈ (splitNl content).drop (j + 1), isHeading x = false := by
    intro x hx
    obtain ⟨n, hn, hx2⟩ := List.mem_iff_getElem.mp hx
    rw [List.getElem_drop] at hx2
    have hn2 : j + 1 + n < (splitNl content).length := by
      rw [List.length_drop] at hn
      omega
    have hfb : isHeading ((splitNl content).getD (j + 1 + n) []) = false := by
      apply hafter
      · omega
      · exact hn2
    rw [getD_eq_getElem_of_lt hn2, hx2] at hfb
    exact hfb
  have hbody : bodyFromIdx (splitNl content) j = joinNl ((splitNl content).drop (j + 1)) := by
    rw [bodyFromIdx, takeWhile_all_self _ _ (fun x hx => by rw [hdropnh x hx]; rfl)]
  have hdget : dget? (parse_changelog content) L =
      some (joinNl ((splitNl content).drop (j + 1))) := by
    rw [lastWins content L hLd, hlli]
    show some (bodyFromIdx (splitNl content) j) = _
    rw [hbody]
  have hmem : L ∈ emittedKeys (parse_changelog content) := by
    rw [emittedKeys]
    refine List.mem_filter.mpr ⟨dget?_some_mem hdget, ?_⟩
    simp [hLU, hLd]
  obtain ⟨E1, E2, hE⟩ := List.append_of_mem hmem
  obtain ⟨u, _, hlines⟩ := update_lines h
  have hdropne : (splitNl content).drop (j + 1) ≠ [] := by
    rw [Ne, List.drop_eq_nil_iff]
    omega
  have hdropnl : ∀ l ∈ (splitNl content).drop (j + 1), NLc ∉ l := by
    intro l hl
    exact mem_splitNl_not_nl (List.drop_subset (j + 1) _ hl)
  have hclean : cleanedLines (dgetD (parse_changelog content) L) =
      ((splitNl content).drop (j + 1)).filter (fun l => !(isBlankL l)) := by
    rw [dgetD, hdget]
    rw [Option.getD_some, cleanedLines_eq, splitNl_joinNl hdropne hdropnl]
  have hsplitdrop : (splitNl content).drop (j + 1) =
      ((splitNl content).drop (j + 1)).take (i - (j + 1)) ++ (splitNl content).drop i := by
    have h2 : (splitNl content).drop i =
        ((splitNl content).drop (j + 1)).drop (i - (j + 1)) := by
      rw [List.drop_drop]
      congr 1
      omega
    rw [h2, List.take_append_drop]
  have hfoot : extract_footer_content content = joinNl ((splitNl content).drop i) := by
    unfold extract_footer_content
    rw [footerScan_eq_drop hi]
  have hconsf : (splitNl content).drop i =
      (splitNl content).getD i [] :: (splitNl content).drop (i + 1) := drop_eq_getD_cons hlen
  have htrf : truthy (strip (extract_footer_content content)) = true := by
    rw [hfoot, hconsf]
    exact hr_footer_truthy _ hhr
  have hsplitf : splitNl (extract_footer_content content) = (splitNl content).drop i := by
    rw [hfoot]
    apply splitNl_joinNl (by rw [hconsf]; simp)
    intro l hl
    exact mem_splitNl_not_nl (List.drop_subset i _ hl)
  refine ⟨splitNl (extract_header_content content) ++ [[]] ++
    [strL "## [Unreleased]", [], strL "### Added", [], strL "### Changed", [],
     strL "### Fixed", []] ++
    splitNl (strL "## [" ++ new_version ++ strL "] - " ++ release_date) ++ [[]] ++
    cleanedLines (strip u) ++ [[]] ++
    E1.flatMap (fun k =>
      splitNl (sectionHeading (parse_changelog content) k) ++ [[]] ++
      cleanedLines (dgetD (parse_changelog content) k) ++ [[]]) ++
    splitNl (sectionHeading (parse_changelog content) L) ++ [[]] ++
    (((splitNl content).drop (j + 1)).take (i - (j + 1))).filter (fun l => !(isBlankL l)),
    [[]] ++ E2.flatMap (fun k =>
      splitNl (sectionHeading (parse_changelog content) k) ++ [[]] ++
      cleanedLines (dgetD (parse_changelog content) k) ++ [[]]), ?_⟩
  rw [hlines, hE, List.flatMap_append, List.flatMap_cons, hclean, htrf, if_pos rfl, hsplitf]
  conv_lhs => rw [hsplitdrop]
  rw [List.filter_append]
  simp [List.append_assoc]

/-- Document for the C9 counterexample: the first horizontal rule lies inside
    the body of a section whose label ends with the date suffix. -/
def c9doc : List Char := strL "## [Unreleased]\nx\n## [v_date]\n---\nz"

/-- Counterexample to claim C9 as stated: the first horizontal-rule line lies
    inside the body of the section labeled v_date, yet the successful output
    contains the rule line exactly once (in the final footer block), not
    twice, because the containing section is never re-emitted.  Appearing
    twice would require at least two copies of the non-blank rule line. -/
theorem claim9_cex :
    (update_changelog_file c9doc (strL "2.0") (strL "2024-06-01")).isSome = true ∧
    firstIdxP hrMatch (splitNl c9doc) = some 3 ∧
    inSectionB (splitNl c9doc) 3 = true ∧
    ((splitNl ((update_changelog_file c9doc (strL "2.0") (strL "2024-06-01")).getD [])).count
      (strL "---")) = 1 :=
  ⟨by decide, by decide, by decide, by decide⟩

/-- Document for the C9 witness: the rule sits in the body of the last dated
    section. -/
def w9doc : List Char := strL "## [Unreleased]\nstuff\n## [1.0] - 2020-01-01\nbody\n---\nfoot"

/-- Witness for the amended claim C9 at a concrete document. -/
theorem claim9_witness :
    ∃ pre mid,
      splitNl ((update_changelog_file w9doc (strL "2.0") (strL "2024-06-01")).getD []) =
        pre ++ ((splitNl w9doc).drop 4).filter (fun l => !(isBlankL l)) ++ mid ++
        (splitNl w9doc).drop 4 :=
  claim9_footer_twice w9doc (strL "2.0") (strL "2024-06-01")
    ((update_changelog_file w9doc (strL "2.0") (strL "2024-06-01")).getD [])
    (strL "1.0") (some (strL "2020-01-01")) 4 2
    (by decide) (by decide) (by decide)
    (by
      intro k h1 h2
      have hlen : (splitNl w9doc).length = 6 := by decide
      rw [hlen] at h2
      interval_cases k
      · decide
      · decide
      · decide)
    (by decide) (by decide) (by decide)
